import Mathlib

/-!
# Verification of the linked-list starter of Advanced-FitchFork

Shallow embedding of the singly-linked-list ADT shipped as the C and C++
starter material (`assets/starters/c-linkedlist/memo/linked_list.c` and
`assets/starters/cpp-linkedlist/memo/LinkedList.cpp`), together with the
harness entry points (`main.c` / `main.cpp`).

The heap is modelled as a list of cells addressed by their index; a cell is
`none` once freed.  `malloc`/`new` always succeeds (allocation failure is
fatal per the spec) and returns a fresh address at the end of the heap.
Every operation that dereferences or writes through a pointer returns an
`Option`: `none` models a memory fault (dereference of a null or dangling
pointer), which is undefined behaviour in the source.  Machine integers:
`size_` is a `size_t` modelled as `Nat` (it is only ever incremented, or
decremented when provably positive, so no wrap-around is reachable in any
state considered here); element values are C `int`, modelled as `Int`
(they are stored and returned, never used in arithmetic).
-/

namespace FitchForkLinkedList

/-- One heap node: `struct Node { int value; Node* next; }`.
`next = none` models a null `next` pointer; `next = some a` points to
heap address `a`. -/
structure Node where
  value : Int
  next : Option Nat
deriving Repr, DecidableEq

/-- The heap: cell `a` of the list is the node at address `a`, or `none`
if that address has been freed. Allocation appends a fresh cell. -/
abbrev Heap := List (Option Node)

/-- `struct LinkedList { Node* head; Node* tail; size_t size; }` /
the private members `head_`, `tail_`, `size_` of the C++ class. -/
structure LinkedList where
  head : Option Nat
  tail : Option Nat
  size : Nat
deriving Repr, DecidableEq

/-- `ll_init` / the default constructor: head and tail null, size 0. -/
def LinkedList.init : LinkedList := ⟨none, none, 0⟩

/-- Read the node at address `a`; `none` models the fault of dereferencing
a null (`a` absent) or dangling (freed cell) pointer. -/
def deref (h : Heap) (a : Nat) : Option Node :=
  match h.get? a with
  | some (some nd) => some nd
  | _ => none

/-- Write the `next` field of the node at address `a`
(`p->next = nx` in the source); `none` models a fault. -/
def setNext (h : Heap) (a : Nat) (nx : Option Nat) : Option Heap :=
  match h.get? a with
  | some (some nd) => some (h.set a (some ⟨nd.value, nx⟩))
  | _ => none

/-- `free(n)` / `delete n`: the cell becomes dead. -/
def freeCell (h : Heap) (a : Nat) : Heap := h.set a none

/-! ## The operations, translated from the source

The C and the C++ implementation of `push_front`, `push_back`, `pop_front`
(modulo the out-pointer, see `ll_pop_front`), `insert`, `erase`, `clear`,
`toVector`/printing traversal and deep copy are statement-for-statement the
same algorithm; they are embedded once under the C++ names.
The functions where the two variants differ (`front`/`back`, move
assignment, `main`) are embedded separately for each variant. -/

/-- `LinkedList::push_front` (LinkedList.cpp:52-60) = `ll_push_front`
(linked_list.c:13-15): allocate `n` with `n->next = head_`, make it the
head, set `tail_` to it if the list had no tail, increment `size_`. -/
def push_front (h : Heap) (l : LinkedList) (v : Int) : Heap × LinkedList :=
  let a := h.length
  let h' := h ++ [some ⟨v, l.head⟩]
  ⟨h', { head := some a
         tail := if l.tail = none then some a else l.tail
         size := l.size + 1 }⟩

/-- `LinkedList::push_back` (LinkedList.cpp:61-74) = `ll_push_back`
(linked_list.c:16-21): allocate `n` with null `next`; if a tail exists,
link `tail_->next = n` (a write through the tail pointer, which faults if
`tail_` dangles) and advance `tail_`; otherwise head and tail both become
`n`. Increment `size_`. -/
def push_back (h : Heap) (l : LinkedList) (v : Int) : Option (Heap × LinkedList) :=
  let a := h.length
  let h₁ := h ++ [some ⟨v, none⟩]
  match l.tail with
  | some t =>
      (setNext h₁ t (some a)).map fun h₂ =>
        ⟨h₂, { head := l.head, tail := some a, size := l.size + 1 }⟩
  | none => some ⟨h₁, { head := some a, tail := some a, size := l.size + 1 }⟩

/-- `LinkedList::pop_front` (LinkedList.cpp:75-87): on a null head return
`false` (modelled as result `none`) leaving everything unchanged; otherwise
read the head node, advance `head_` to its successor, reset `tail_` to null
when the list became empty, free the node, decrement `size_`, and return
the detached value (`some v` models `return true` with `out = v`). -/
def pop_front (h : Heap) (l : LinkedList) : Option (Heap × LinkedList × Option Int) :=
  match l.head with
  | none => some ⟨h, l, none⟩
  | some a =>
    (deref h a).map fun nd =>
      ⟨freeCell h a,
       { head := nd.next
         tail := if nd.next = none then none else l.tail
         size := l.size - 1 },
       some nd.value⟩

/-- The pointer walk `for (i ...; ++i) prev = prev->next` starting at
address `a` for `k` steps; faults if it walks off the chain. -/
def advance (h : Heap) (a : Nat) : Nat → Option Nat
  | 0 => some a
  | k + 1 =>
    match deref h a with
    | some nd =>
      match nd.next with
      | some b => advance h b k
      | none => none
    | none => none

/-- `LinkedList::insert` (LinkedList.cpp:94-116) = `ll_insert`
(linked_list.c:30-34): `index > size_` fails without mutation; `index = 0`
delegates to `push_front`; `index = size_` delegates to `push_back`;
otherwise walk `index - 1` links from `head_` to `prev`, allocate `n` with
`n->next = prev->next`, link `prev->next = n`, increment `size_`.
In the interior branch the source dereferences `head_`/`prev`
unconditionally, so a null head there is a fault. -/
def insert (h : Heap) (l : LinkedList) (index : Nat) (v : Int) :
    Option (Heap × LinkedList × Bool) :=
  if index > l.size then some ⟨h, l, false⟩
  else if index = 0 then
    let p := push_front h l v
    some ⟨p.1, p.2, true⟩
  else if index = l.size then
    (push_back h l v).map fun p => ⟨p.1, p.2, true⟩
  else
    match l.head with
    | none => none
    | some a₀ =>
      match advance h a₀ (index - 1) with
      | none => none
      | some prev =>
        match deref h prev with
        | none => none
        | some pnd =>
          let a := h.length
          let h₁ := h ++ [some ⟨v, pnd.next⟩]
          (setNext h₁ prev (some a)).map fun h₂ =>
            ⟨h₂, { head := l.head, tail := l.tail, size := l.size + 1 }, true⟩

/-- `LinkedList::erase` (LinkedList.cpp:117-136) = `ll_erase`
(linked_list.c:36-39): `index ≥ size_` fails without mutation; `index = 0`
delegates to `pop_front` (discarding the popped value into a temporary);
otherwise walk to `prev`, detach `victim = prev->next`, relink
`prev->next = victim->next`, reassign `tail_ = prev` when the victim was
the tail (pointer comparison `victim == tail_`), free the victim,
decrement `size_`. -/
def erase (h : Heap) (l : LinkedList) (index : Nat) :
    Option (Heap × LinkedList × Bool) :=
  if index ≥ l.size then some ⟨h, l, false⟩
  else if index = 0 then
    (pop_front h l).map fun p => ⟨p.1, p.2.1, p.2.2.isSome⟩
  else
    match l.head with
    | none => none
    | some a₀ =>
      match advance h a₀ (index - 1) with
      | none => none
      | some prev =>
        match deref h prev with
        | none => none
        | some pnd =>
          match pnd.next with
          | none => none
          | some victim =>
            match deref h victim with
            | none => none
            | some vnd =>
              (setNext h prev vnd.next).map fun h₁ =>
                ⟨freeCell h₁ victim,
                 { head := l.head
                   tail := if l.tail = some victim then some prev else l.tail
                   size := l.size - 1 },
                 true⟩

/-- The freeing loop of `LinkedList::clear` (LinkedList.cpp:40-50) =
`ll_clear` (linked_list.c:8-11): walk the chain freeing each node.  The
fuel bounds the walk; a chain longer than the heap (a cycle) or a dangling
link is a fault. -/
def clearAux (h : Heap) : Option Nat → Nat → Option Heap
  | none, _ => some h
  | some _, 0 => none
  | some a, fuel + 1 =>
    match deref h a with
    | some nd => clearAux (freeCell h a) nd.next fuel
    | none => none

/-- `clear`: free every node, then `head_ = tail_ = nullptr; size_ = 0`. -/
def clear (h : Heap) (l : LinkedList) : Option (Heap × LinkedList) :=
  (clearAux h l.head (h.length + 1)).map fun h' => ⟨h', LinkedList.init⟩

/-- The traversal of `LinkedList::toVector` (LinkedList.cpp:138-145),
also the shape of the harness `print_list` loop: collect values from
`head_` following `next`. -/
def toVectorAux (h : Heap) : Option Nat → Nat → Option (List Int)
  | none, _ => some []
  | some _, 0 => none
  | some a, fuel + 1 =>
    match deref h a with
    | some nd => (toVectorAux h nd.next fuel).map (nd.value :: ·)
    | none => none

/-- `toVector` / `toSequence`: the ordered value sequence of the list. -/
def toVector (h : Heap) (l : LinkedList) : Option (List Int) :=
  toVectorAux h l.head (h.length + 1)

/-- The loop of `LinkedList::copyFrom` (LinkedList.cpp:146-150) =
`ll_copy` (linked_list.c:41-43): walk the source chain from `cur`,
`push_back`-ing each value onto `dst`. -/
def copyFromAux (h : Heap) (dst : LinkedList) : Option Nat → Nat → Option (Heap × LinkedList)
  | none, _ => some ⟨h, dst⟩
  | some _, 0 => none
  | some a, fuel + 1 =>
    match deref h a with
    | some nd =>
      match push_back h dst nd.value with
      | some ⟨h', dst'⟩ => copyFromAux h' dst' nd.next fuel
      | none => none
    | none => none

/-- `duplicate` (the copy constructor `LinkedList(const LinkedList&)` =
`ll_copy`): start from a fresh empty list and `copyFrom` the source. -/
def duplicate (h : Heap) (src : LinkedList) : Option (Heap × LinkedList) :=
  copyFromAux h LinkedList.init src.head (h.length + 1)

/-- `transferFrom` (the move constructor `LinkedList(LinkedList&&)`,
LinkedList.cpp:6-11 = `ll_move_from`, linked_list.c:45): the new list
steals head, tail and size; the source is reset to the empty state.
Returns `(heap, new list, source afterwards)`. -/
def move_from (h : Heap) (src : LinkedList) : Heap × LinkedList × LinkedList :=
  ⟨h, ⟨src.head, src.tail, src.size⟩, LinkedList.init⟩

/-- `LinkedList::operator=(LinkedList&&)` (LinkedList.cpp:22-34) applied
to two DISTINCT objects (`this != &other` holds): clear the receiver,
steal the source's members, reset the source.
Returns `(heap, receiver afterwards, source afterwards)`. -/
def cpp_move_assign (h : Heap) (dst src : LinkedList) :
    Option (Heap × LinkedList × LinkedList) :=
  (clear h dst).map fun p =>
    ⟨p.1, ⟨src.head, src.tail, src.size⟩, LinkedList.init⟩

/-- `LinkedList::operator=(LinkedList&&)` applied to the SAME object:
the guard `if (this != &other)` skips the whole body, so nothing at all
happens. -/
def cpp_move_assign_self (h : Heap) (l : LinkedList) : Heap × LinkedList :=
  ⟨h, l⟩

/-- `ll_move_assign_from` (linked_list.c:47) applied to two DISTINCT
objects: `ll_clear(dst); *dst = *src; ll_init(src);`. -/
def ll_move_assign_from (h : Heap) (dst src : LinkedList) :
    Option (Heap × LinkedList × LinkedList) :=
  (clear h dst).map fun p =>
    ⟨p.1, ⟨src.head, src.tail, src.size⟩, LinkedList.init⟩

/-- `ll_move_assign_from(l, l)` — the SAME object passed as both `dst`
and `src` (the C source has no self-assignment guard): `ll_clear(dst)`
frees every node and zeroes the one shared struct; `*dst = *src` then
copies that already-zeroed struct onto itself; `ll_init(src)` zeroes it
again. -/
def ll_move_assign_self (h : Heap) (l : LinkedList) : Option (Heap × LinkedList) :=
  (clear h l).map fun p =>
    let cleared := p.2
    ⟨p.1, { head := cleared.head, tail := cleared.tail, size := cleared.size }⟩

/-- `ll_front` (linked_list.c:27): null head reports failure `0` without
touching memory; otherwise write `head->value` through `out` when `out`
is non-null and report `1`.  Result `(flag, written value)`; the value
component is `none` when nothing was written. -/
def ll_front (h : Heap) (l : LinkedList) (outNull : Bool) : Option (Bool × Option Int) :=
  match l.head with
  | none => some ⟨false, none⟩
  | some a =>
    if outNull then some ⟨true, none⟩
    else (deref h a).map fun nd => ⟨true, some nd.value⟩

/-- `ll_back` (linked_list.c:28): as `ll_front` but through `tail`. -/
def ll_back (h : Heap) (l : LinkedList) (outNull : Bool) : Option (Bool × Option Int) :=
  match l.tail with
  | none => some ⟨false, none⟩
  | some a =>
    if outNull then some ⟨true, none⟩
    else (deref h a).map fun nd => ⟨true, some nd.value⟩

/-- `ll_pop_front` (linked_list.c:23-25): like `pop_front`, but the out
pointer may be null, in which case the popped value is simply not
written.  Result `(heap, list, flag, written value)`. -/
def ll_pop_front (h : Heap) (l : LinkedList) (outNull : Bool) :
    Option (Heap × LinkedList × Bool × Option Int) :=
  match l.head with
  | none => some ⟨h, l, false, none⟩
  | some a =>
    (deref h a).map fun nd =>
      ⟨freeCell h a,
       { head := nd.next
         tail := if nd.next = none then none else l.tail
         size := l.size - 1 },
       true,
       if outNull then none else some nd.value⟩

/-- `LinkedList::front()` (LinkedList.cpp:89-90): `return head_->value;`
with no guard — on a null head this dereferences null.  `none` models
that fault (undefined behaviour), not a defined failure result. -/
def cpp_front (h : Heap) (l : LinkedList) : Option Int :=
  l.head.bind fun a => (deref h a).map Node.value

/-- `LinkedList::back()` (LinkedList.cpp:91-92): `return tail_->value;`
with no guard; `none` models the null/dangling dereference fault. -/
def cpp_back (h : Heap) (l : LinkedList) : Option Int :=
  l.tail.bind fun a => (deref h a).map Node.value

/-! ## The harness entry points -/

/-- Exit status of `main` in cpp-linkedlist/main/main.cpp:123-151:
with an argument equal to `task1`, `task2` or `task3` the named task runs
and the status is 0; any other argument prints `unknown task` and yields
status 2; with no argument all three tasks run in order, status 0.
(The task bodies only drive the list and print; they do not affect the
exit status.)  `args` is `argv[1..]`. -/
def cpp_main (args : List String) : Nat :=
  match args with
  | which :: _ =>
    if which = "task1" then 0
    else if which = "task2" then 0
    else if which = "task3" then 0
    else 2
  | [] => 0

/-- Exit status of `main` in c-linkedlist/main/main.c:139-161: `which` is
`argv[1]` or `""`; a match on `task1`/`task2`/`task3` runs that task and
returns 0; EVERY other value — the empty default and unrecognized
selectors alike — falls through to running all three tasks and returns
0.  There is no non-zero exit path. -/
def c_main (args : List String) : Nat :=
  let which := match args with
    | w :: _ => w
    | [] => ""
  if which = "task1" then 0
  else if which = "task2" then 0
  else if which = "task3" then 0
  else 0

/-! ## Operation sequences

The public mutating operations of the ADT, for stating "after any finite
sequence of public operations" (the state queries `empty`/`size` and the
accessors `front`/`back` do not modify the structure, so they are not
state transitions; `front`/`back` on an empty list are treated with the
dedicated fault theorems below). -/

/-- One public mutating operation. -/
inductive Op where
  | pushFront (v : Int)
  | pushBack (v : Int)
  | popFront
  | insertAt (index : Nat) (v : Int)
  | eraseAt (index : Nat)
  | clearAll
deriving Repr, DecidableEq

/-- Apply one operation to a heap/list state (discarding the reported
value or flag, which does not affect the structure). -/
def step (h : Heap) (l : LinkedList) : Op → Option (Heap × LinkedList)
  | .pushFront v => some (push_front h l v)
  | .pushBack v => push_back h l v
  | .popFront => (pop_front h l).map fun p => ⟨p.1, p.2.1⟩
  | .insertAt i v => (insert h l i v).map fun p => ⟨p.1, p.2.1⟩
  | .eraseAt i => (erase h l i).map fun p => ⟨p.1, p.2.1⟩
  | .clearAll => clear h l

/-- Run a sequence of operations from a given state. -/
def runFrom (h : Heap) (l : LinkedList) : List Op → Option (Heap × LinkedList)
  | [] => some ⟨h, l⟩
  | op :: ops =>
    match step h l op with
    | some ⟨h', l'⟩ => runFrom h' l' ops
    | none => none

/-- Run a sequence of operations from a freshly initialized list on an
empty heap. -/
def run (ops : List Op) : Option (Heap × LinkedList) :=
  runFrom [] LinkedList.init ops

/-! ## The representation predicate -/

/-- First address of a chain segment, or the given continuation pointer
when the segment is empty. -/
def cHead : List (Nat × Int) → Option Nat → Option Nat
  | [], nxt => nxt
  | (a, _) :: _, _ => some a

/-- `isSeg h hd c nxt`: starting at pointer `hd`, the heap holds exactly
the (address, value) chain `c`, whose last node's `next` is `nxt`. -/
def isSeg (h : Heap) : Option Nat → List (Nat × Int) → Option Nat → Bool
  | hd, [], nxt => hd == nxt
  | hd, (a, v) :: rest, nxt =>
    hd == some a && h.get? a == some (some ⟨v, cHead rest nxt⟩)
      && isSeg h (cHead rest nxt) rest nxt

/-- A full null-terminated chain. -/
def isChain (h : Heap) (hd : Option Nat) (c : List (Nat × Int)) : Bool :=
  isSeg h hd c none

/-- The addresses of a chain. -/
def addrs (c : List (Nat × Int)) : List Nat := c.map Prod.fst

/-- The values of a chain. -/
def vals (c : List (Nat × Int)) : List Int := c.map Prod.snd

/-- `Rep h l c`: the list `l` is represented in heap `h` by the chain
`c` — the heap carries the chain from `head`, the addresses are distinct,
`tail` is the last chain address (or null for the empty chain), and
`size` is the chain length.  This is the structural invariant of the
data structure. -/
def Rep (h : Heap) (l : LinkedList) (c : List (Nat × Int)) : Prop :=
  isChain h l.head c = true ∧ (addrs c).Nodup ∧
    l.tail = (addrs c).getLast? ∧ l.size = c.length

instance (h : Heap) (l : LinkedList) (c : List (Nat × Int)) :
    Decidable (Rep h l c) := by
  unfold Rep
  infer_instance

/-- A list is well-formed when some chain represents it. -/
def WF (h : Heap) (l : LinkedList) : Prop :=
  ∃ c, Rep h l c

/-- Heap evolution across one operation on a list represented by `c`,
producing a list represented by `c'`: the heap only grows, cells outside
the operated-on chain are untouched, and the new chain only uses old
chain cells or freshly allocated ones. -/
def Evolves (h : Heap) (c : List (Nat × Int)) (h' : Heap) (c' : List (Nat × Int)) : Prop :=
  h.length ≤ h'.length ∧
  (∀ a, a < h.length → a ∉ addrs c → h'.get? a = h.get? a) ∧
  (∀ a ∈ addrs c', a ∈ addrs c ∨ h.length ≤ a)

/-! ## Chain toolkit -/

theorem isSeg_nil_iff {h : Heap} {hd nxt : Option Nat} :
    isSeg h hd [] nxt = true ↔ hd = nxt := by
  simp [isSeg]

theorem isSeg_cons_iff {h : Heap} {hd : Option Nat} {a : Nat} {v : Int}
    {rest : List (Nat × Int)} {nxt : Option Nat} :
    isSeg h hd ((a, v) :: rest) nxt = true ↔
      hd = some a ∧ h.get? a = some (some ⟨v, cHead rest nxt⟩) ∧
        isSeg h (cHead rest nxt) rest nxt = true := by
  simp [isSeg, and_assoc]

theorem cHead_append (c₁ c₂ : List (Nat × Int)) (nxt : Option Nat) :
    cHead (c₁ ++ c₂) nxt = cHead c₁ (cHead c₂ nxt) := by
  cases c₁ with
  | nil => rfl
  | cons p rest => cases p; rfl

/-- Every address of a heap-resident segment is a live in-bounds cell. -/
theorem isSeg_mem_lt (h : Heap) :
    ∀ (c : List (Nat × Int)) (hd nxt : Option Nat), isSeg h hd c nxt = true →
      ∀ p ∈ c, p.1 < h.length := by
  intro c
  induction c with
  | nil => intro hd nxt _ p hp; cases hp
  | cons q rest ih =>
    obtain ⟨a, v⟩ := q
    intro hd nxt hs p hp
    rw [isSeg_cons_iff] at hs
    obtain ⟨_, hget, hrest⟩ := hs
    rw [List.mem_cons] at hp
    rcases hp with hp | hp
    · subst hp
      exact (List.get?_eq_some.mp hget).1
    · exact ih _ _ hrest p hp

/-- A segment only depends on the heap cells at its own addresses. -/
theorem isSeg_congr {h h' : Heap} :
    ∀ {c : List (Nat × Int)} {hd nxt : Option Nat},
      (∀ p ∈ c, h'.get? p.1 = h.get? p.1) →
      isSeg h hd c nxt = true → isSeg h' hd c nxt = true := by
  intro c
  induction c with
  | nil => intro hd nxt _ hs; simpa [isSeg_nil_iff] using hs
  | cons q rest ih =>
    obtain ⟨a, v⟩ := q
    intro hd nxt hagree hs
    rw [isSeg_cons_iff] at hs ⊢
    obtain ⟨hhd, hget, hrest⟩ := hs
    refine ⟨hhd, ?_, ?_⟩
    · rw [hagree ⟨a, v⟩ (by simp)]; exact hget
    · exact ih (fun p hp => hagree p (by simp [hp])) hrest

/-- Growing the heap on the right preserves every segment. -/
theorem isSeg_append_heap {h : Heap} (ext : Heap)
    {c : List (Nat × Int)} {hd nxt : Option Nat} (hs : isSeg h hd c nxt = true) :
    isSeg (h ++ ext) hd c nxt = true := by
  refine isSeg_congr (fun p hp => ?_) hs
  exact List.get?_append (isSeg_mem_lt h c hd nxt hs p hp)

/-- Writing a cell outside a segment preserves it. -/
theorem isSeg_set_outside {h : Heap} {b : Nat} (x : Option Node)
    {c : List (Nat × Int)} {hd nxt : Option Nat}
    (hb : b ∉ addrs c) (hs : isSeg h hd c nxt = true) :
    isSeg (h.set b x) hd c nxt = true := by
  refine isSeg_congr (fun p hp => ?_) hs
  have : p.1 ≠ b := by
    intro hpe
    exact hb (hpe ▸ List.mem_map_of_mem Prod.fst hp)
  exact List.get?_set_ne _ _ (Ne.symm this)

/-- Gluing two consecutive segments. -/
theorem isSeg_glue {h : Heap} :
    ∀ (c₁ : List (Nat × Int)) {hd : Option Nat} (c₂ : List (Nat × Int)) {nxt : Option Nat},
      isSeg h hd c₁ (cHead c₂ nxt) = true → isSeg h (cHead c₂ nxt) c₂ nxt = true →
      isSeg h hd (c₁ ++ c₂) nxt = true := by
  intro c₁
  induction c₁ with
  | nil =>
    intro hd c₂ nxt h₁ h₂
    rw [isSeg_nil_iff] at h₁
    simpa [h₁] using h₂
  | cons q rest ih =>
    obtain ⟨a, v⟩ := q
    intro hd c₂ nxt h₁ h₂
    rw [isSeg_cons_iff] at h₁
    obtain ⟨hhd, hget, hrest⟩ := h₁
    rw [List.cons_append, isSeg_cons_iff, cHead_append]
    exact ⟨hhd, hget, ih _ hrest h₂⟩

/-- The entry pointer of a segment is its first address. -/
theorem isSeg_head_eq {h : Heap} {c : List (Nat × Int)} {hd nxt : Option Nat}
    (hs : isSeg h hd c nxt = true) : hd = cHead c nxt := by
  cases c with
  | nil => exact isSeg_nil_iff.mp hs
  | cons q rest =>
    obtain ⟨a, v⟩ := q
    exact (isSeg_cons_iff.mp hs).1

/-- Splitting a segment at an append point. -/
theorem isSeg_split {h : Heap} :
    ∀ (c₁ : List (Nat × Int)) {hd : Option Nat} (c₂ : List (Nat × Int)) {nxt : Option Nat},
      isSeg h hd (c₁ ++ c₂) nxt = true →
      isSeg h hd c₁ (cHead c₂ nxt) = true ∧ isSeg h (cHead c₂ nxt) c₂ nxt = true := by
  intro c₁
  induction c₁ with
  | nil =>
    intro hd c₂ nxt hs
    rw [List.nil_append] at hs
    exact ⟨isSeg_nil_iff.mpr (isSeg_head_eq hs), isSeg_head_eq hs ▸ hs⟩
  | cons q rest ih =>
    obtain ⟨a, v⟩ := q
    intro hd c₂ nxt hs
    rw [List.cons_append, isSeg_cons_iff, cHead_append] at hs
    obtain ⟨hhd, hget, hrest⟩ := hs
    obtain ⟨h₁, h₂⟩ := ih _ hrest
    exact ⟨isSeg_cons_iff.mpr ⟨hhd, hget, h₁⟩, h₂⟩

theorem addrs_append (c₁ c₂ : List (Nat × Int)) :
    addrs (c₁ ++ c₂) = addrs c₁ ++ addrs c₂ := List.map_append _ _ _

theorem vals_append (c₁ c₂ : List (Nat × Int)) :
    vals (c₁ ++ c₂) = vals c₁ ++ vals c₂ := List.map_append _ _ _

theorem deref_of_get? {h : Heap} {a : Nat} {nd : Node}
    (hg : h.get? a = some (some nd)) : deref h a = some nd := by
  unfold deref
  rw [hg]

theorem rep_head {h : Heap} {l : LinkedList} {c : List (Nat × Int)}
    (hr : Rep h l c) : l.head = cHead c none :=
  isSeg_head_eq hr.1

theorem rep_mem_lt {h : Heap} {l : LinkedList} {c : List (Nat × Int)}
    (hr : Rep h l c) : ∀ p ∈ c, p.1 < h.length :=
  isSeg_mem_lt h c l.head none hr.1

/-- A represented chain never exceeds the heap size (its addresses are
distinct in-bounds cells). -/
theorem rep_length_le {h : Heap} {l : LinkedList} {c : List (Nat × Int)}
    (hr : Rep h l c) : c.length ≤ h.length := by
  have hsub : addrs c ⊆ List.range h.length := by
    intro a ha
    rw [List.mem_range]
    obtain ⟨p, hp, hpa⟩ := List.mem_map.mp ha
    exact hpa ▸ rep_mem_lt hr p hp
  have := (hr.2.1.subperm hsub).length_le
  simpa [addrs] using this

/-- On a nonempty represented list, `tail` points at the chain's last
cell, whose stored `next` is null. -/
theorem rep_tail_node {h : Heap} {l : LinkedList} {c : List (Nat × Int)}
    (hr : Rep h l c) (hne : c ≠ []) :
    ∃ c₀ t tv, c = c₀ ++ [(t, tv)] ∧ l.tail = some t ∧
      h.get? t = some (some ⟨tv, none⟩) := by
  rcases (List.eq_nil_or_concat c).resolve_left hne with ⟨c₀, ⟨t, tv⟩, hc⟩
  rw [List.concat_eq_append] at hc
  subst hc
  refine ⟨c₀, t, tv, rfl, ?_, ?_⟩
  · rw [hr.2.2.1, addrs_append]
    simp [addrs]
  · have := (isSeg_split c₀ [(t, tv)] hr.1).2
    rw [isSeg_cons_iff] at this
    simpa [cHead] using this.2.1

/-- The pointer walk of `insert`/`erase`: after `k ≤ |c|` steps from the
head of the segment `(a, v) :: c`, the walker sits at the `k`-th cell. -/
theorem advance_spec {h : Heap} :
    ∀ (k : Nat) (a : Nat) (v : Int) (c : List (Nat × Int)) (nxt : Option Nat),
      isSeg h (some a) ((a, v) :: c) nxt = true → k ≤ c.length →
      advance h a k = cHead (((a, v) :: c).drop k) nxt := by
  intro k
  induction k with
  | zero => intro a v c nxt _ _; simp [advance, cHead]
  | succ k ih =>
    intro a v c nxt hs hk
    rw [isSeg_cons_iff] at hs
    obtain ⟨_, hget, hrest⟩ := hs
    cases c with
    | nil => simp at hk
    | cons q rest =>
      obtain ⟨b, w⟩ := q
      have hb : cHead ((b, w) :: rest) nxt = some b := rfl
      rw [hb] at hget hrest
      show advance h a (k + 1) = _
      rw [advance, deref_of_get? hget]
      simp only [List.drop_succ_cons]
      exact ih b w rest nxt hrest (by simpa using hk)

/-- The `toVector` traversal of a represented segment yields its values. -/
theorem toVectorAux_spec {h : Heap} :
    ∀ (c : List (Nat × Int)) (hd : Option Nat) (fuel : Nat),
      isSeg h hd c none = true → c.length ≤ fuel →
      toVectorAux h hd fuel = some (vals c) := by
  intro c
  induction c with
  | nil =>
    intro hd fuel hs _
    rw [isSeg_nil_iff] at hs
    subst hs
    cases fuel <;> simp [toVectorAux, vals]
  | cons q rest ih =>
    obtain ⟨a, v⟩ := q
    intro hd fuel hs hfuel
    rw [isSeg_cons_iff] at hs
    obtain ⟨rfl, hget, hrest⟩ := hs
    cases fuel with
    | zero => simp at hfuel
    | succ f =>
      rw [toVectorAux, deref_of_get? hget]
      show (toVectorAux h (cHead rest none) f).map (v :: ·) = some (vals ((a, v) :: rest))
      rw [ih (cHead rest none) f hrest (by simpa using hfuel)]
      simp [vals]

theorem toVector_spec {h : Heap} {l : LinkedList} {c : List (Nat × Int)}
    (hr : Rep h l c) : toVector h l = some (vals c) := by
  have hc : isSeg h l.head c none = true := hr.1
  exact toVectorAux_spec c l.head (h.length + 1) hc
    (Nat.le_succ_of_le (rep_length_le hr))

/-- `size = 0` iff the chain is empty iff `head` is null iff `tail` is
null, on any represented list. -/
theorem rep_empty_iff {h : Heap} {l : LinkedList} {c : List (Nat × Int)}
    (hr : Rep h l c) :
    (l.size = 0 ↔ l.head = none) ∧ (l.size = 0 ↔ l.tail = none) := by
  have hhead := rep_head hr
  have htail := hr.2.2.1
  have hsize := hr.2.2.2
  constructor
  · rw [hsize, hhead]
    cases c with
    | nil => simp [cHead]
    | cons q rest => cases q; simp [cHead]
  · rw [hsize, htail]
    cases c using List.reverseRecOn with
    | nil => simp [addrs]
    | append_singleton c₀ q =>
      cases q
      rw [addrs_append]
      simp [addrs]

theorem getLast?_cons_of_ne_nil {α : Type} (a : α) {l : List α} (hl : l ≠ []) :
    (a :: l).getLast? = l.getLast? := by
  have := @List.getLast?_append_of_ne_nil _ [a] l hl
  simpa using this

/-- A freshly allocated address is outside any represented chain. -/
theorem fresh_not_mem {h : Heap} {l : LinkedList} {c : List (Nat × Int)}
    (hr : Rep h l c) : h.length ∉ addrs c := by
  intro hmem
  obtain ⟨p, hp, hpa⟩ := List.mem_map.mp hmem
  exact absurd (hpa ▸ rep_mem_lt hr p hp) (lt_irrefl _)

/-! ## Specification lemmas for each operation -/

/-- `push_front` prepends a fresh cell to the chain. -/
theorem push_front_spec {h : Heap} {l : LinkedList} {c : List (Nat × Int)}
    (hr : Rep h l c) (v : Int) :
    Rep (push_front h l v).1 (push_front h l v).2 ((h.length, v) :: c) ∧
      Evolves h c (push_front h l v).1 ((h.length, v) :: c) := by
  have hhead := rep_head hr
  have hfresh := fresh_not_mem hr
  constructor
  · refine ⟨?_, ?_, ?_, ?_⟩
    · show isSeg (h ++ [some ⟨v, l.head⟩]) (some h.length) ((h.length, v) :: c) none = true
      rw [isSeg_cons_iff]
      refine ⟨rfl, ?_, ?_⟩
      · rw [List.get?_concat_length, hhead]
      · exact isSeg_append_heap _ (hhead ▸ hr.1)
    · show (addrs ((h.length, v) :: c)).Nodup
      exact List.nodup_cons.mpr ⟨hfresh, hr.2.1⟩
    · show (if l.tail = none then some h.length else l.tail) =
        (addrs ((h.length, v) :: c)).getLast?
      by_cases hc : c = []
      · subst hc
        have : l.tail = none := by
          rw [hr.2.2.1]; rfl
        simp [this, addrs]
      · have hanil : addrs c ≠ [] := by
          simpa [addrs] using hc
        have htne : l.tail ≠ none := by
          rw [hr.2.2.1]
          cases haddr : (addrs c).getLast? with
          | none => exact absurd (List.getLast?_eq_none_iff.mp haddr) hanil
          | some t => simp
        rw [if_neg htne, hr.2.2.1]
        show _ = (h.length :: addrs c).getLast?
        rw [getLast?_cons_of_ne_nil _ hanil]
    · show l.size + 1 = ((h.length, v) :: c).length
      rw [hr.2.2.2]; rfl
  · refine ⟨by simp [push_front], fun a ha _ => List.get?_append ha, ?_⟩
    intro a ha
    rcases List.mem_cons.mp ha with ha | ha
    · exact Or.inr (le_of_eq ha.symm)
    · exact Or.inl ha

/-- `push_back` appends a fresh cell to the chain. -/
theorem push_back_spec {h : Heap} {l : LinkedList} {c : List (Nat × Int)}
    (hr : Rep h l c) (v : Int) :
    ∃ h' l', push_back h l v = some ⟨h', l'⟩ ∧
      Rep h' l' (c ++ [(h.length, v)]) ∧ Evolves h c h' (c ++ [(h.length, v)]) := by
  have hhead := rep_head hr
  have hfresh := fresh_not_mem hr
  by_cases hc : c = []
  · subst hc
    have htail : l.tail = none := by rw [hr.2.2.1]; rfl
    have hpb : push_back h l v =
        some ⟨h ++ [some (Node.mk v none)],
          { head := some h.length, tail := some h.length, size := l.size + 1 }⟩ := by
      unfold push_back
      rw [htail]
    simp only [List.nil_append]
    refine ⟨_, _, hpb, ⟨?_, ?_, ?_, ?_⟩, ?_, ?_, ?_⟩
    · show isSeg (h ++ [some (Node.mk v none)]) (some h.length) [(h.length, v)] none = true
      rw [isSeg_cons_iff]
      refine ⟨rfl, ?_, by rw [isSeg_nil_iff]; rfl⟩
      rw [List.get?_concat_length]
      rfl
    · simp [addrs]
    · simp [addrs]
    · show l.size + 1 = 1
      rw [hr.2.2.2]
      rfl
    · simp
    · exact fun a ha _ => List.get?_append ha
    · intro a ha
      have hae : a = h.length := by simpa [addrs] using ha
      exact Or.inr (le_of_eq hae.symm)
  · obtain ⟨c₀, t, tv, hdecomp, htail, hget⟩ := rep_tail_node hr hc
    have htlt : t < h.length := by
      have : ((t, tv) : Nat × Int) ∈ c := by rw [hdecomp]; simp
      exact rep_mem_lt hr _ this
    have htne : t ≠ h.length := Nat.ne_of_lt htlt
    have ht_notin_c₀ : t ∉ addrs c₀ := by
      intro hmem
      have hnd := hr.2.1
      rw [hdecomp, addrs_append] at hnd
      rcases List.nodup_append.mp hnd with ⟨-, -, hdisj⟩
      exact hdisj hmem (by simp [addrs])
    have hget₁ : (h ++ [some (Node.mk v none)]).get? t = some (some (Node.mk tv none)) := by
      rw [List.get?_append htlt]; exact hget
    have hpb : push_back h l v =
        some ⟨(h ++ [some (Node.mk v none)]).set t (some (Node.mk tv (some h.length))),
          { head := l.head, tail := some h.length, size := l.size + 1 }⟩ := by
      unfold push_back
      rw [htail]
      show (setNext (h ++ [some (Node.mk v none)]) t (some h.length)).map _ = _
      unfold setNext
      rw [hget₁]
      rfl
    have hlen₂ : ((h ++ [some (Node.mk v none)]).set t (some (Node.mk tv (some h.length)))).length
        = h.length + 1 := by
      rw [List.length_set, List.length_append]
      rfl
    have hget₂_fresh : ((h ++ [some (Node.mk v none)]).set t
        (some (Node.mk tv (some h.length)))).get? h.length = some (some (Node.mk v none)) := by
      rw [List.get?_set_ne _ _ htne, List.get?_concat_length]
    have hget₂_t : ((h ++ [some (Node.mk v none)]).set t
        (some (Node.mk tv (some h.length)))).get? t = some (some (Node.mk tv (some h.length))) := by
      rw [List.get?_set_eq_of_lt]
      rw [List.length_append]
      exact Nat.lt_succ_of_lt htlt
    have hchain₂ : isSeg ((h ++ [some (Node.mk v none)]).set t (some (Node.mk tv (some h.length))))
        l.head (c ++ [(h.length, v)]) none = true := by
      have hs₀ : isSeg h l.head c₀ (some t) = true := by
        have := (isSeg_split c₀ [(t, tv)] (hdecomp ▸ hr.1)).1
        simpa [cHead] using this
      have hs₀' : isSeg ((h ++ [some (Node.mk v none)]).set t (some (Node.mk tv (some h.length))))
          l.head c₀ (some t) = true :=
        isSeg_set_outside _ ht_notin_c₀ (isSeg_append_heap _ hs₀)
      have hs₁ : isSeg ((h ++ [some (Node.mk v none)]).set t (some (Node.mk tv (some h.length))))
          (some t) [(t, tv)] (some h.length) = true := by
        rw [isSeg_cons_iff]
        exact ⟨rfl, hget₂_t, by rw [isSeg_nil_iff]; rfl⟩
      have hs₂ : isSeg ((h ++ [some (Node.mk v none)]).set t (some (Node.mk tv (some h.length))))
          (some h.length) [(h.length, v)] none = true := by
        rw [isSeg_cons_iff]
        exact ⟨rfl, hget₂_fresh, by rw [isSeg_nil_iff]; rfl⟩
      have hglue₁ := isSeg_glue [(t, tv)] [(h.length, v)] hs₁ hs₂
      have hglue₀ := isSeg_glue c₀ ([(t, tv)] ++ [(h.length, v)])
        (by simpa [cHead] using hs₀') hglue₁
      rw [hdecomp, List.append_assoc]
      exact hglue₀
    refine ⟨_, _, hpb, ⟨hchain₂, ?_, ?_, ?_⟩, ?_, ?_, ?_⟩
    · rw [addrs_append, List.nodup_append]
      refine ⟨hr.2.1, by simp [addrs], ?_⟩
      intro a ha hmem
      have : a = h.length := by simpa [addrs] using hmem
      exact absurd (this ▸ ha) hfresh
    · show some h.length = (addrs (c ++ [(h.length, v)])).getLast?
      rw [addrs_append]
      show _ = (addrs c ++ [h.length]).getLast?
      rw [List.getLast?_concat]
    · show l.size + 1 = (c ++ [(h.length, v)]).length
      rw [hr.2.2.2]
      simp
    · rw [hlen₂]
      exact Nat.le_succ _
    · intro a ha hnotin
      have hat : a ≠ t := by
        intro he
        exact hnotin (he ▸ (hdecomp ▸ (by simp [addrs] : t ∈ addrs (c₀ ++ [(t, tv)]))))
      rw [List.get?_set_ne _ _ (Ne.symm hat), List.get?_append ha]
    · intro a ha
      rw [addrs_append] at ha
      rcases List.mem_append.mp ha with ha | ha
      · exact Or.inl ha
      · have hae : a = h.length := by simpa [addrs] using ha
        exact Or.inr (le_of_eq hae.symm)

/-- `pop_front` on an empty represented list reports failure and leaves
heap and list untouched. -/
theorem pop_front_spec_nil {h : Heap} {l : LinkedList} (hr : Rep h l []) :
    pop_front h l = some ⟨h, l, none⟩ := by
  have hhead : l.head = none := rep_head hr
  unfold pop_front
  rw [hhead]

/-- `pop_front` on a nonempty represented list returns the head value,
frees the head cell, and leaves the chain's tail represented. -/
theorem pop_front_spec_cons {h : Heap} {l : LinkedList} {a : Nat} {v : Int}
    {c : List (Nat × Int)} (hr : Rep h l ((a, v) :: c)) :
    ∃ l', pop_front h l = some ⟨freeCell h a, l', some v⟩ ∧
      Rep (freeCell h a) l' c ∧ Evolves h ((a, v) :: c) (freeCell h a) c := by
  have hcons := isSeg_cons_iff.mp hr.1
  obtain ⟨hhead, hget, hrest⟩ := hcons
  have hnd : a ∉ addrs c ∧ (addrs c).Nodup := List.nodup_cons.mp hr.2.1
  have hanotin : a ∉ addrs c := hnd.1
  have hpf : pop_front h l =
      some ⟨freeCell h a,
        { head := cHead c none
          tail := if cHead c none = none then none else l.tail
          size := l.size - 1 },
        some v⟩ := by
    unfold pop_front
    rw [hhead]
    show (deref h a).map _ = _
    rw [deref_of_get? hget]
    rfl
  refine ⟨_, hpf, ⟨?_, ?_, ?_, ?_⟩, ?_, ?_, ?_⟩
  · exact isSeg_set_outside _ hanotin hrest
  · exact hnd.2
  · show (if cHead c none = none then none else l.tail) = (addrs c).getLast?
    cases c with
    | nil => simp [cHead, addrs]
    | cons q rest =>
      obtain ⟨b, w⟩ := q
      have hne : addrs ((b, w) :: rest) ≠ [] := by simp [addrs]
      rw [if_neg (by simp [cHead]), hr.2.2.1]
      show (a :: addrs ((b, w) :: rest)).getLast? = _
      rw [getLast?_cons_of_ne_nil _ hne]
  · show l.size - 1 = c.length
    rw [hr.2.2.2]
    rfl
  · show h.length ≤ (freeCell h a).length
    rw [freeCell, List.length_set]
  · intro a' _ hnotin
    have : a' ≠ a := fun he => hnotin (by simp [addrs, he])
    exact List.get?_set_ne _ _ (Ne.symm this)
  · intro a' ha'
    exact Or.inl (by simp [addrs] at ha' ⊢; exact Or.inr ha')

/-- The freeing loop of `clear` frees exactly the chain's cells. -/
theorem clearAux_spec :
    ∀ (c : List (Nat × Int)) (h : Heap) (hd : Option Nat) (fuel : Nat),
      isSeg h hd c none = true → (addrs c).Nodup → c.length ≤ fuel →
      ∃ h', clearAux h hd fuel = some h' ∧ h'.length = h.length ∧
        ∀ a, a ∉ addrs c → h'.get? a = h.get? a := by
  intro c
  induction c with
  | nil =>
    intro h hd fuel hs _ _
    have : hd = none := isSeg_nil_iff.mp hs
    subst this
    refine ⟨h, ?_, rfl, fun _ _ => rfl⟩
    cases fuel <;> rfl
  | cons q rest ih =>
    obtain ⟨a, v⟩ := q
    intro h hd fuel hs hnd hfuel
    obtain ⟨hhd, hget, hrest⟩ := isSeg_cons_iff.mp hs
    subst hhd
    cases fuel with
    | zero => simp at hfuel
    | succ f =>
      have hnd' : a ∉ addrs rest ∧ (addrs rest).Nodup := List.nodup_cons.mp hnd
      have hrest' : isSeg (freeCell h a) (cHead rest none) rest none = true :=
        isSeg_set_outside _ hnd'.1 hrest
      obtain ⟨h', hca, hlen, hframe⟩ :=
        ih (freeCell h a) (cHead rest none) f hrest' hnd'.2 (by simpa using hfuel)
      refine ⟨h', ?_, ?_, ?_⟩
      · rw [clearAux, deref_of_get? hget]
        exact hca
      · rw [hlen, freeCell, List.length_set]
      · intro a' hnotin
        have hne : a' ≠ a := fun he => hnotin (by simp [addrs, he])
        have : a' ∉ addrs rest := fun hmem => hnotin (by simp [addrs] at hmem ⊢; exact Or.inr hmem)
        rw [hframe a' this, freeCell]
        exact List.get?_set_ne _ _ (Ne.symm hne)

/-- `clear` succeeds on any represented list, resets it to the empty
state, and touches only the chain's cells. -/
theorem clear_spec {h : Heap} {l : LinkedList} {c : List (Nat × Int)}
    (hr : Rep h l c) :
    ∃ h', clear h l = some ⟨h', LinkedList.init⟩ ∧ Rep h' LinkedList.init [] ∧
      Evolves h c h' [] ∧ ∀ a, a ∉ addrs c → h'.get? a = h.get? a := by
  obtain ⟨h', hca, hlen, hframe⟩ := clearAux_spec c h l.head (h.length + 1) hr.1 hr.2.1
    (le_trans (rep_length_le hr) (Nat.le_succ _))
  refine ⟨h', ?_, ⟨rfl, List.nodup_nil, rfl, rfl⟩, ⟨le_of_eq hlen.symm,
    fun a _ ha => hframe a ha, by simp [addrs]⟩, hframe⟩
  unfold clear
  rw [hca]
  rfl

/-- The `for`-loop of `insert`/`erase`: on a represented list, walking
`i - 1` links from the head reaches the cell at chain position `i - 1`
(`prev` in the source), and the heap read of that cell yields its stored
value and a `next` pointing at chain position `i`. -/
theorem walk_to_prev {h : Heap} {l : LinkedList} {c : List (Nat × Int)}
    (hr : Rep h l c) {i : Nat} (hi1 : 1 ≤ i) (hile : i ≤ c.length) :
    ∃ a₀ prev pv,
      l.head = some a₀ ∧
      advance h a₀ (i - 1) = some prev ∧
      c.get? (i - 1) = some (prev, pv) ∧
      c.drop (i - 1) = (prev, pv) :: c.drop i ∧
      h.get? prev = some (some (Node.mk pv (cHead (c.drop i) none))) := by
  have hlt : i - 1 < c.length := by omega
  obtain ⟨prev, pv, hpe⟩ : ∃ p q, c.get ⟨i - 1, hlt⟩ = (p, q) :=
    ⟨(c.get ⟨i - 1, hlt⟩).1, (c.get ⟨i - 1, hlt⟩).2, rfl⟩
  have hdrop : c.drop (i - 1) = (prev, pv) :: c.drop i := by
    have := List.drop_eq_get_cons hlt
    rw [hpe] at this
    have hi1' : i - 1 + 1 = i := by omega
    rwa [hi1'] at this
  cases c with
  | nil => simp at hlt
  | cons q crest =>
    obtain ⟨a₀, v₀⟩ := q
    have hhead : l.head = some a₀ := rep_head hr
    have hchain : isSeg h (some a₀) ((a₀, v₀) :: crest) none = true := by
      have h1 := hr.1
      rwa [hhead] at h1
    have hadv : advance h a₀ (i - 1) =
        cHead (((a₀, v₀) :: crest).drop (i - 1)) none := by
      refine advance_spec (i - 1) a₀ v₀ crest none hchain ?_
      simp only [List.length_cons] at hile
      omega
    have hsplitarg : isSeg h (some a₀)
        (((a₀, v₀) :: crest).take (i - 1) ++ ((a₀, v₀) :: crest).drop (i - 1)) none = true := by
      rw [List.take_append_drop]
      exact hchain
    have hsecond := (isSeg_split _ _ hsplitarg).2
    rw [hdrop] at hsecond
    obtain ⟨-, hgetp, -⟩ := isSeg_cons_iff.mp hsecond
    refine ⟨a₀, prev, pv, hhead, ?_, ?_, hdrop, hgetp⟩
    · rw [hadv, hdrop]
      rfl
    · rw [List.get?_eq_get hlt, hpe]

/-- `insert` at any index `i ≤ size` on a represented list succeeds and
splices one fresh cell in at chain position `i`. -/
theorem insert_spec_ok {h : Heap} {l : LinkedList} {c : List (Nat × Int)}
    (hr : Rep h l c) (v : Int) {i : Nat} (hile : i ≤ c.length) :
    ∃ h' l', insert h l i v = some ⟨h', l', true⟩ ∧
      Rep h' l' (c.take i ++ (h.length, v) :: c.drop i) ∧
      Evolves h c h' (c.take i ++ (h.length, v) :: c.drop i) := by
  have hsize := hr.2.2.2
  by_cases hi0 : i = 0
  · subst hi0
    simp only [List.take_zero, List.drop_zero, List.nil_append]
    obtain ⟨hrep', hev'⟩ := push_front_spec hr v
    refine ⟨_, _, ?_, hrep', hev'⟩
    unfold insert
    rw [if_neg (by omega), if_pos rfl]
  · by_cases hiS : i = c.length
    · subst hiS
      simp only [List.take_length, List.drop_length]
      obtain ⟨h', l', hpb, hrep', hev'⟩ := push_back_spec hr v
      refine ⟨h', l', ?_, hrep', hev'⟩
      unfold insert
      rw [if_neg (by omega), if_neg hi0, if_pos (by omega), hpb]
      rfl
    · have hi1 : 1 ≤ i := by omega
      have hilt : i < c.length := by omega
      obtain ⟨a₀, prev, pv, hhead, hadv, hgetidx, hdrop, hgetp⟩ :=
        walk_to_prev hr hi1 (le_of_lt hilt)
      have hprevmem : (prev, pv) ∈ c := List.get?_mem hgetidx
      have hprevlt : prev < h.length := rep_mem_lt hr _ hprevmem
      have hpnd : deref h prev = some (Node.mk pv (cHead (c.drop i) none)) :=
        deref_of_get? hgetp
      have hgetp₁ : (h ++ [some (Node.mk v (cHead (c.drop i) none))]).get? prev
          = some (some (Node.mk pv (cHead (c.drop i) none))) := by
        rw [List.get?_append hprevlt]; exact hgetp
      have hred : insert h l i v =
          some ⟨(h ++ [some (Node.mk v (cHead (c.drop i) none))]).set prev
              (some (Node.mk pv (some h.length))),
            ⟨l.head, l.tail, l.size + 1⟩, true⟩ := by
        unfold insert
        rw [if_neg (by omega), if_neg hi0, if_neg (by omega)]
        simp only [hhead, hadv, hpnd]
        unfold setNext
        rw [hgetp₁]
        rfl
      -- chain decompositions
      have hcdec : c = c.take (i - 1) ++ (prev, pv) :: c.drop i := by
        conv_lhs => rw [← List.take_append_drop (i - 1) c]
        rw [hdrop]
      have htake : c.take i = c.take (i - 1) ++ [(prev, pv)] := by
        have h1 : c.take (i - 1 + 1) = c.take (i - 1) ++ [(prev, pv)] := by
          rw [List.take_succ, List.get?_eq_getElem? ] at *
          rw [hgetidx]
          rfl
        rwa [show i - 1 + 1 = i by omega] at h1
      have hCdec : c.take i ++ (h.length, v) :: c.drop i =
          c.take (i - 1) ++ (prev, pv) :: (h.length, v) :: c.drop i := by
        rw [htake, List.append_assoc, List.singleton_append]
      -- address bookkeeping
      have hnd : (addrs (c.take (i - 1)) ++ prev :: addrs (c.drop i)).Nodup := by
        have h1 := hr.2.1
        conv at h1 => rw [hcdec]
        rwa [addrs_append] at h1
      have hprev_notin_take : prev ∉ addrs (c.take (i - 1)) := by
        intro hmem
        rcases List.nodup_append.mp hnd with ⟨-, -, hdisj⟩
        exact hdisj hmem (List.mem_cons_self _ _)
      have hprev_notin_drop : prev ∉ addrs (c.drop i) :=
        (List.nodup_cons.mp (List.nodup_append.mp hnd).2.1).1
      have hfresh := fresh_not_mem hr
      have htake_lt : ∀ x ∈ addrs (c.take (i - 1)), x < h.length := by
        intro x hx
        obtain ⟨p, hp, rfl⟩ := List.mem_map.mp hx
        exact rep_mem_lt hr _ (List.take_subset _ _ hp)
      have hdrop_lt : ∀ x ∈ addrs (c.drop i), x < h.length := by
        intro x hx
        obtain ⟨p, hp, rfl⟩ := List.mem_map.mp hx
        exact rep_mem_lt hr _ (List.drop_subset _ _ hp)
      have hfresh_ne_prev : h.length ≠ prev := Ne.symm (Nat.ne_of_lt hprevlt)
      have hfresh_notin_take : h.length ∉ addrs (c.take (i - 1)) := by
        intro hmem
        exact absurd (htake_lt _ hmem) (lt_irrefl _)
      have hfresh_notin_drop : h.length ∉ addrs (c.drop i) := by
        intro hmem
        exact absurd (hdrop_lt _ hmem) (lt_irrefl _)
      -- the spliced chain is represented in the new heap
      have hs_take : isSeg h l.head (c.take (i - 1)) (some prev) = true := by
        have harg : isSeg h l.head (c.take (i - 1) ++ c.drop (i - 1)) none = true := by
          rw [List.take_append_drop]; exact hr.1
        have h1 := (isSeg_split _ _ harg).1
        rw [hdrop] at h1
        exact h1
      have hs_drop : isSeg h (cHead (c.drop i) none) (c.drop i) none = true := by
        have harg : isSeg h l.head (c.take (i - 1) ++ (prev, pv) :: c.drop i) none = true := by
          rw [← hcdec]; exact hr.1
        have h2 := (isSeg_split _ _ harg).2
        exact (isSeg_cons_iff.mp (by simpa [cHead] using h2)).2.2
      have hlen₁ : prev < (h ++ [some (Node.mk v (cHead (c.drop i) none))]).length := by
        rw [List.length_append]
        exact Nat.lt_succ_of_lt hprevlt
      have hs_take₂ : isSeg ((h ++ [some (Node.mk v (cHead (c.drop i) none))]).set prev
          (some (Node.mk pv (some h.length)))) l.head (c.take (i - 1)) (some prev) = true :=
        isSeg_set_outside _ hprev_notin_take (isSeg_append_heap _ hs_take)
      have hs_prev₂ : isSeg ((h ++ [some (Node.mk v (cHead (c.drop i) none))]).set prev
          (some (Node.mk pv (some h.length)))) (some prev) [(prev, pv)] (some h.length) = true := by
        rw [isSeg_cons_iff]
        refine ⟨rfl, ?_, by rw [isSeg_nil_iff]; rfl⟩
        rw [List.get?_set_eq_of_lt _ hlen₁]
        rfl
      have hs_new₂ : isSeg ((h ++ [some (Node.mk v (cHead (c.drop i) none))]).set prev
          (some (Node.mk pv (some h.length)))) (some h.length) [(h.length, v)]
          (cHead (c.drop i) none) = true := by
        rw [isSeg_cons_iff]
        refine ⟨rfl, ?_, by rw [isSeg_nil_iff]; rfl⟩
        rw [List.get?_set_ne _ _ hfresh_ne_prev.symm, List.get?_concat_length]
        rfl
      have hs_drop₂ : isSeg ((h ++ [some (Node.mk v (cHead (c.drop i) none))]).set prev
          (some (Node.mk pv (some h.length)))) (cHead (c.drop i) none) (c.drop i) none = true :=
        isSeg_set_outside _ hprev_notin_drop (isSeg_append_heap _ hs_drop)
      have hglue₁ := isSeg_glue [(h.length, v)] (c.drop i) hs_new₂ hs_drop₂
      have hglue₂ := isSeg_glue [(prev, pv)] ((h.length, v) :: c.drop i)
        hs_prev₂ hglue₁
      have hglue₃ := isSeg_glue (c.take (i - 1))
        ((prev, pv) :: (h.length, v) :: c.drop i) hs_take₂ hglue₂
      have hchain' : isSeg ((h ++ [some (Node.mk v (cHead (c.drop i) none))]).set prev
          (some (Node.mk pv (some h.length)))) l.head
          (c.take i ++ (h.length, v) :: c.drop i) none = true := by
        rw [hCdec]
        exact hglue₃
      -- nonemptiness of the dropped suffix
      have hsub_take : ∀ x, x ∈ addrs (c.take (i - 1)) → x ∈ addrs c := by
        intro x hx
        rw [hcdec, addrs_append]
        exact List.mem_append_left _ hx
      have hsub_drop : ∀ x, x ∈ addrs (c.drop i) → x ∈ addrs c := by
        intro x hx
        rw [hcdec, addrs_append]
        refine List.mem_append_right _ ?_
        simp [addrs] at hx ⊢
        exact Or.inr hx
      have hprev_in : prev ∈ addrs c := List.mem_map_of_mem Prod.fst hprevmem
      have hdropne : addrs (c.drop i) ≠ [] := by
        have : c.drop i ≠ [] := by
          intro he
          have := List.drop_eq_nil_iff_le.mp he
          omega
        simpa [addrs] using this
      refine ⟨_, _, hred, ⟨hchain', ?_, ?_, ?_⟩, ?_, ?_, ?_⟩
      · -- Nodup of the new chain
        rw [addrs_append]
        show (addrs (c.take i) ++ h.length :: addrs (c.drop i)).Nodup
        rw [List.nodup_middle]
        refine List.nodup_cons.mpr ⟨?_, ?_⟩
        · intro hmem
          rcases List.mem_append.mp hmem with hm | hm
          · rw [htake, addrs_append] at hm
            rcases List.mem_append.mp hm with hm | hm
            · exact hfresh_notin_take hm
            · exact hfresh_ne_prev (by simpa [addrs] using hm)
          · exact hfresh_notin_drop hm
        · rw [htake, addrs_append, List.append_assoc]
          have hsingle : addrs [(prev, pv)] ++ addrs (c.drop i) = prev :: addrs (c.drop i) := rfl
          rw [hsingle]
          exact hnd
      · -- tail unchanged
        show l.tail = _
        rw [hr.2.2.1, addrs_append]
        show (addrs c).getLast? = (addrs (c.take i) ++ h.length :: addrs (c.drop i)).getLast?
        rw [@List.getLast?_append_of_ne_nil _ (addrs (c.take i))
            (h.length :: addrs (c.drop i)) (by simp),
          getLast?_cons_of_ne_nil _ hdropne]
        conv_lhs => rw [hcdec]
        rw [addrs_append]
        have hcons : addrs ((prev, pv) :: c.drop i) = prev :: addrs (c.drop i) := rfl
        rw [hcons]
        rw [@List.getLast?_append_of_ne_nil _ (addrs (c.take (i - 1)))
            (prev :: addrs (c.drop i)) (by simp),
          getLast?_cons_of_ne_nil _ hdropne]
      · -- size
        show l.size + 1 = _
        rw [hsize]
        simp [List.length_take, List.length_drop]
        omega
      · -- heap only grows
        rw [List.length_set, List.length_append]
        simp
      · -- frame
        intro x hx hnotin
        have hxne : x ≠ prev := by
          intro he
          exact hnotin (he ▸ List.mem_map_of_mem Prod.fst hprevmem)
        rw [List.get?_set_ne _ _ (Ne.symm hxne), List.get?_append hx]
      · -- new chain cells are old or fresh
        intro x hx
        rw [addrs_append] at hx
        rcases List.mem_append.mp hx with hm | hm
        · rw [htake, addrs_append] at hm
          rcases List.mem_append.mp hm with hm | hm
          · exact Or.inl (hsub_take _ hm)
          · have hxe : x = prev := by simpa [addrs] using hm
            exact Or.inl (hxe ▸ hprev_in)
        · have hm' : x = h.length ∨ x ∈ addrs (c.drop i) := by
            simpa [addrs] using hm
          rcases hm' with hm' | hm'
          · exact Or.inr (le_of_eq hm'.symm)
          · exact Or.inl (hsub_drop _ hm')

/-- `insert` beyond the size fails and leaves heap and list untouched. -/
theorem insert_spec_oob {h : Heap} {l : LinkedList} {c : List (Nat × Int)}
    (hr : Rep h l c) (v : Int) {i : Nat} (hgt : i > c.length) :
    insert h l i v = some ⟨h, l, false⟩ := by
  have hsize := hr.2.2.2
  unfold insert
  rw [if_pos (by omega)]

/-- `erase` at or beyond the size fails and leaves heap and list
untouched. -/
theorem erase_spec_oob {h : Heap} {l : LinkedList} {c : List (Nat × Int)}
    (hr : Rep h l c) {i : Nat} (hge : i ≥ c.length) :
    erase h l i = some ⟨h, l, false⟩ := by
  have hsize := hr.2.2.2
  unfold erase
  rw [if_pos (by omega)]

/-- `erase` at a valid index succeeds and removes exactly the cell at
chain position `i`. -/
theorem erase_spec_ok {h : Heap} {l : LinkedList} {c : List (Nat × Int)}
    (hr : Rep h l c) {i : Nat} (hilt : i < c.length) :
    ∃ h' l', erase h l i = some ⟨h', l', true⟩ ∧
      Rep h' l' (c.take i ++ c.drop (i + 1)) ∧
      Evolves h c h' (c.take i ++ c.drop (i + 1)) := by
  have hsize := hr.2.2.2
  by_cases hi0 : i = 0
  · subst hi0
    cases c with
    | nil => simp at hilt
    | cons q rest =>
      obtain ⟨a, v⟩ := q
      obtain ⟨l', hpf, hrep', hev'⟩ := pop_front_spec_cons hr
      refine ⟨freeCell h a, l', ?_, by simpa using hrep', by simpa using hev'⟩
      unfold erase
      rw [if_neg (by simp only [List.length_cons] at hsize; omega), if_pos rfl, hpf]
      rfl
  · have hi1 : 1 ≤ i := by omega
    obtain ⟨a₀, prev, pv, hhead, hadv, hgetidx, hdrop, hgetp⟩ :=
      walk_to_prev hr hi1 (le_of_lt hilt)
    obtain ⟨victim, vv, hve⟩ : ∃ p q, c.get ⟨i, hilt⟩ = (p, q) :=
      ⟨(c.get ⟨i, hilt⟩).1, (c.get ⟨i, hilt⟩).2, rfl⟩
    have hdropi : c.drop i = (victim, vv) :: c.drop (i + 1) := by
      have h1 := List.drop_eq_get_cons hilt
      rwa [hve] at h1
    have hvictimmem : (victim, vv) ∈ c := by
      rw [← hve]
      exact c.get_mem _ _
    have hvictimlt : victim < h.length := rep_mem_lt hr _ hvictimmem
    have hprevmem : (prev, pv) ∈ c := List.get?_mem hgetidx
    have hprevlt : prev < h.length := rep_mem_lt hr _ hprevmem
    -- full chain decomposition
    have hcdec : c = c.take (i - 1) ++ (prev, pv) :: (victim, vv) :: c.drop (i + 1) := by
      conv_lhs => rw [← List.take_append_drop (i - 1) c]
      rw [hdrop, hdropi]
    have htake : c.take i = c.take (i - 1) ++ [(prev, pv)] := by
      have h1 : c.take (i - 1 + 1) = c.take (i - 1) ++ [(prev, pv)] := by
        rw [List.take_succ, List.get?_eq_getElem? ] at *
        rw [hgetidx]
        rfl
      rwa [show i - 1 + 1 = i by omega] at h1
    -- pointer reads
    have hgetp' : h.get? prev = some (some (Node.mk pv (some victim))) := by
      rw [hgetp, hdropi]
      rfl
    have hpnd : deref h prev = some (Node.mk pv (some victim)) := deref_of_get? hgetp'
    have hvictimseg : isSeg h (some victim) ((victim, vv) :: c.drop (i + 1)) none = true := by
      have harg : isSeg h l.head (c.take i ++ c.drop i) none = true := by
        rw [List.take_append_drop]; exact hr.1
      have h2 := (isSeg_split _ _ harg).2
      rw [hdropi] at h2
      exact h2
    obtain ⟨-, hgetv, hdropseg⟩ := isSeg_cons_iff.mp hvictimseg
    have hvnd : deref h victim =
        some (Node.mk vv (cHead (c.drop (i + 1)) none)) := deref_of_get? hgetv
    -- nodup bookkeeping
    have hnd : (addrs (c.take (i - 1)) ++ prev :: victim :: addrs (c.drop (i + 1))).Nodup := by
      have h1 := hr.2.1
      conv at h1 => rw [hcdec]
      rwa [addrs_append] at h1
    have hndtail : (prev :: victim :: addrs (c.drop (i + 1))).Nodup :=
      (List.nodup_append.mp hnd).2.1
    have hvp : victim ≠ prev := by
      intro he
      exact (List.nodup_cons.mp hndtail).1 (by simp [he])
    have hprev_notin_take : prev ∉ addrs (c.take (i - 1)) := by
      intro hmem
      rcases List.nodup_append.mp hnd with ⟨-, -, hdisj⟩
      exact hdisj hmem (by simp)
    have hvictim_notin_take : victim ∉ addrs (c.take (i - 1)) := by
      intro hmem
      rcases List.nodup_append.mp hnd with ⟨-, -, hdisj⟩
      exact hdisj hmem (by simp)
    have hprev_notin_drop : prev ∉ addrs (c.drop (i + 1)) := by
      have := (List.nodup_cons.mp hndtail).1
      intro hmem
      exact this (by simp [hmem])
    have hvictim_notin_drop : victim ∉ addrs (c.drop (i + 1)) :=
      (List.nodup_cons.mp (List.nodup_cons.mp hndtail).2).1
    -- the reduction of `erase`
    have hsetp : setNext h prev (cHead (c.drop (i + 1)) none) =
        some (h.set prev (some (Node.mk pv (cHead (c.drop (i + 1)) none)))) := by
      unfold setNext
      rw [hgetp']
    have hred : erase h l i =
        some ⟨(h.set prev (some (Node.mk pv (cHead (c.drop (i + 1)) none)))).set victim none,
          ⟨l.head, if l.tail = some victim then some prev else l.tail, l.size - 1⟩, true⟩ := by
      unfold erase
      rw [if_neg (by omega), if_neg hi0]
      simp only [hhead, hadv, hpnd, hvnd, hsetp]
      rfl
    -- the new chain in the new heap
    have hs_take : isSeg h l.head (c.take (i - 1)) (some prev) = true := by
      have harg : isSeg h l.head (c.take (i - 1) ++ c.drop (i - 1)) none = true := by
        rw [List.take_append_drop]; exact hr.1
      have h1 := (isSeg_split _ _ harg).1
      rw [hdrop] at h1
      exact h1
    have hs_take₂ : isSeg ((h.set prev (some (Node.mk pv (cHead (c.drop (i + 1)) none)))).set
        victim none) l.head (c.take (i - 1)) (some prev) = true :=
      isSeg_set_outside _ hvictim_notin_take (isSeg_set_outside _ hprev_notin_take hs_take)
    have hs_prev₂ : isSeg ((h.set prev (some (Node.mk pv (cHead (c.drop (i + 1)) none)))).set
        victim none) (some prev) [(prev, pv)] (cHead (c.drop (i + 1)) none) = true := by
      rw [isSeg_cons_iff]
      refine ⟨rfl, ?_, by rw [isSeg_nil_iff]; rfl⟩
      rw [List.get?_set_ne _ _ hvp, List.get?_set_eq_of_lt _ hprevlt]
      rfl
    have hs_drop₂ : isSeg ((h.set prev (some (Node.mk pv (cHead (c.drop (i + 1)) none)))).set
        victim none) (cHead (c.drop (i + 1)) none) (c.drop (i + 1)) none = true :=
      isSeg_set_outside _ hvictim_notin_drop (isSeg_set_outside _ hprev_notin_drop hdropseg)
    have hglue₁ := isSeg_glue [(prev, pv)] (c.drop (i + 1)) hs_prev₂ hs_drop₂
    have hglue₂ := isSeg_glue (c.take (i - 1)) ((prev, pv) :: c.drop (i + 1)) hs_take₂ hglue₁
    have hCdec : c.take i ++ c.drop (i + 1) =
        c.take (i - 1) ++ (prev, pv) :: c.drop (i + 1) := by
      rw [htake, List.append_assoc, List.singleton_append]
    have hchain' : isSeg ((h.set prev (some (Node.mk pv (cHead (c.drop (i + 1)) none)))).set
        victim none) l.head (c.take i ++ c.drop (i + 1)) none = true := by
      rw [hCdec]
      exact hglue₂
    -- nodup of the new chain
    have hnd' : (addrs (c.take i ++ c.drop (i + 1))).Nodup := by
      rw [hCdec, addrs_append]
      have hcons : addrs ((prev, pv) :: c.drop (i + 1)) = prev :: addrs (c.drop (i + 1)) := rfl
      rw [hcons]
      refine List.Nodup.sublist ?_ hnd
      refine List.Sublist.append_left ?_ _
      exact List.Sublist.cons₂ prev (List.sublist_cons_self victim _)
    -- tail analysis
    have htail_old := hr.2.2.1
    have haddrc : addrs c = addrs (c.take (i - 1)) ++ prev :: victim :: addrs (c.drop (i + 1)) := by
      conv_lhs => rw [hcdec]
      rw [addrs_append]
      rfl
    refine ⟨_, _, hred, ⟨hchain', hnd', ?_, ?_⟩, ?_, ?_, ?_⟩
    · -- tail of the result
      show (if l.tail = some victim then some prev else l.tail) = _
      rw [hCdec, addrs_append]
      have hcons : addrs ((prev, pv) :: c.drop (i + 1)) = prev :: addrs (c.drop (i + 1)) := rfl
      rw [hcons]
      by_cases hlast : c.drop (i + 1) = []
      · have hB : addrs (c.drop (i + 1)) = [] := by rw [hlast]; rfl
        have htl : l.tail = some victim := by
          rw [htail_old, haddrc, hB]
          rw [@List.getLast?_append_of_ne_nil _ (addrs (c.take (i - 1)))
              (prev :: victim :: []) (by simp)]
          rfl
        rw [if_pos htl, hB]
        rw [@List.getLast?_append_of_ne_nil _ (addrs (c.take (i - 1)))
            (prev :: []) (by simp)]
        rfl
      · have hB : addrs (c.drop (i + 1)) ≠ [] := by
          simpa [addrs] using hlast
        have hgB : (addrs c).getLast? = (addrs (c.drop (i + 1))).getLast? := by
          rw [haddrc]
          rw [@List.getLast?_append_of_ne_nil _ (addrs (c.take (i - 1)))
              (prev :: victim :: addrs (c.drop (i + 1))) (by simp)]
          rw [getLast?_cons_of_ne_nil _ (by simp [hB]), getLast?_cons_of_ne_nil _ hB]
        obtain ⟨b, hb⟩ : ∃ b, (addrs (c.drop (i + 1))).getLast? = some b := by
          cases hx : (addrs (c.drop (i + 1))).getLast? with
          | none => exact absurd (List.getLast?_eq_none_iff.mp hx) hB
          | some b => exact ⟨b, rfl⟩
        have hbmem : b ∈ addrs (c.drop (i + 1)) := List.mem_of_mem_getLast? hb
        have htl : l.tail ≠ some victim := by
          rw [htail_old, hgB, hb]
          intro he
          have : b = victim := by injection he
          exact hvictim_notin_drop (this ▸ hbmem)
        rw [if_neg htl, htail_old, hgB]
        rw [@List.getLast?_append_of_ne_nil _ (addrs (c.take (i - 1)))
            (prev :: addrs (c.drop (i + 1))) (by simp)]
        rw [getLast?_cons_of_ne_nil _ hB]
    · -- size
      show l.size - 1 = _
      rw [hsize]
      simp [List.length_take, List.length_drop]
      omega
    · -- heap length preserved
      rw [List.length_set, List.length_set]
    · -- frame
      intro x hx hnotin
      have hxp : x ≠ prev := by
        intro he
        exact hnotin (he ▸ List.mem_map_of_mem Prod.fst hprevmem)
      have hxv : x ≠ victim := by
        intro he
        exact hnotin (he ▸ List.mem_map_of_mem Prod.fst hvictimmem)
      rw [List.get?_set_ne _ _ (Ne.symm hxv), List.get?_set_ne _ _ (Ne.symm hxp)]
    · -- new chain cells all come from the old chain
      intro x hx
      rw [addrs_append] at hx
      refine Or.inl ?_
      rcases List.mem_append.mp hx with hm | hm
      · obtain ⟨p, hp, rfl⟩ := List.mem_map.mp hm
        exact List.mem_map_of_mem Prod.fst (List.take_subset _ _ hp)
      · obtain ⟨p, hp, rfl⟩ := List.mem_map.mp hm
        exact List.mem_map_of_mem Prod.fst (List.drop_subset _ _ hp)

theorem evolves_refl (h : Heap) (c : List (Nat × Int)) : Evolves h c h c :=
  ⟨le_refl _, fun _ _ _ => rfl, fun _ ha => Or.inl ha⟩

/-- A freshly initialized list is represented by the empty chain in any
heap. -/
theorem rep_init (h : Heap) : Rep h LinkedList.init [] :=
  ⟨rfl, List.nodup_nil, rfl, rfl⟩

/-- Every public mutating operation succeeds on a represented list,
yields a represented list, only grows the heap and only touches its own
chain's cells. -/
theorem step_spec {h : Heap} {l : LinkedList} {c : List (Nat × Int)}
    (hr : Rep h l c) (op : Op) :
    ∃ h' l' c', step h l op = some ⟨h', l'⟩ ∧ Rep h' l' c' ∧ Evolves h c h' c' := by
  cases op with
  | pushFront v =>
    obtain ⟨hrep, hev⟩ := push_front_spec hr v
    exact ⟨_, _, _, rfl, hrep, hev⟩
  | pushBack v =>
    obtain ⟨h', l', hpb, hrep, hev⟩ := push_back_spec hr v
    refine ⟨h', l', _, ?_, hrep, hev⟩
    unfold step
    exact hpb
  | popFront =>
    cases c with
    | nil =>
      refine ⟨h, l, [], ?_, hr, evolves_refl h []⟩
      unfold step
      rw [pop_front_spec_nil hr]
      rfl
    | cons q rest =>
      obtain ⟨a, v⟩ := q
      obtain ⟨l', hpf, hrep, hev⟩ := pop_front_spec_cons hr
      refine ⟨freeCell h a, l', rest, ?_, hrep, hev⟩
      unfold step
      rw [hpf]
      rfl
  | insertAt i v =>
    by_cases hile : i ≤ c.length
    · obtain ⟨h', l', hins, hrep, hev⟩ := insert_spec_ok hr v hile
      refine ⟨h', l', _, ?_, hrep, hev⟩
      unfold step
      show (insert h l i v).map (fun p => (p.1, p.2.1)) = _
      rw [hins]
      rfl
    · refine ⟨h, l, c, ?_, hr, evolves_refl h c⟩
      unfold step
      show (insert h l i v).map (fun p => (p.1, p.2.1)) = _
      rw [insert_spec_oob hr v (by omega)]
      rfl
  | eraseAt i =>
    by_cases hilt : i < c.length
    · obtain ⟨h', l', hers, hrep, hev⟩ := erase_spec_ok hr hilt
      refine ⟨h', l', _, ?_, hrep, hev⟩
      unfold step
      show (erase h l i).map (fun p => (p.1, p.2.1)) = _
      rw [hers]
      rfl
    · refine ⟨h, l, c, ?_, hr, evolves_refl h c⟩
      unfold step
      show (erase h l i).map (fun p => (p.1, p.2.1)) = _
      rw [erase_spec_oob hr (by omega)]
      rfl
  | clearAll =>
    obtain ⟨h', hcl, hrep, hev, -⟩ := clear_spec hr
    refine ⟨h', LinkedList.init, [], ?_, hrep, hev⟩
    unfold step
    exact hcl

/-- Running any operation sequence from a represented state succeeds and
ends in a represented state. -/
theorem runFrom_wf :
    ∀ (ops : List Op) (h : Heap) (l : LinkedList) (c : List (Nat × Int)),
      Rep h l c → ∃ h' l' c', runFrom h l ops = some ⟨h', l'⟩ ∧ Rep h' l' c' := by
  intro ops
  induction ops with
  | nil =>
    intro h l c hr
    exact ⟨h, l, c, rfl, hr⟩
  | cons op ops ih =>
    intro h l c hr
    obtain ⟨h₁, l₁, c₁, hstep, hrep₁, -⟩ := step_spec hr op
    obtain ⟨h', l', c', hrun, hrep'⟩ := ih h₁ l₁ c₁ hrep₁
    refine ⟨h', l', c', ?_, hrep'⟩
    rw [runFrom, hstep]
    exact hrun

/-- Running any operation sequence on one list never disturbs a second,
disjointly represented list. -/
theorem runFrom_spectator :
    ∀ (ops : List Op) (h : Heap) (l : LinkedList) (c : List (Nat × Int))
      (b : LinkedList) (cb : List (Nat × Int)),
      Rep h l c → Rep h b cb → (∀ x ∈ addrs c, x ∉ addrs cb) →
      ∃ h' l' c', runFrom h l ops = some ⟨h', l'⟩ ∧ Rep h' l' c' ∧ Rep h' b cb ∧
        (∀ x ∈ addrs c', x ∉ addrs cb) := by
  intro ops
  induction ops with
  | nil =>
    intro h l c b cb hr hb hdisj
    exact ⟨h, l, c, rfl, hr, hb, hdisj⟩
  | cons op ops ih =>
    intro h l c b cb hr hb hdisj
    obtain ⟨h₁, l₁, c₁, hstep, hrep₁, hev⟩ := step_spec hr op
    have hb₁ : Rep h₁ b cb := by
      refine ⟨isSeg_congr ?_ hb.1, hb.2.1, hb.2.2.1, hb.2.2.2⟩
      intro p hp
      refine hev.2.1 p.1 (rep_mem_lt hb p hp) ?_
      intro hmem
      exact hdisj p.1 hmem (List.mem_map_of_mem Prod.fst hp)
    have hdisj₁ : ∀ x ∈ addrs c₁, x ∉ addrs cb := by
      intro x hx hmem
      rcases hev.2.2 x hx with hold | hfreshx
      · exact hdisj x hold hmem
      · obtain ⟨p, hp, rfl⟩ := List.mem_map.mp hmem
        exact absurd (rep_mem_lt hb p hp) (not_lt.mpr hfreshx)
    obtain ⟨h', l', c', hrun, hrep', hb', hdisj'⟩ := ih h₁ l₁ c₁ b cb hrep₁ hb₁ hdisj₁
    refine ⟨h', l', c', ?_, hrep', hb', hdisj'⟩
    rw [runFrom, hstep]
    exact hrun

/-- The copy loop: appends the source chain's values onto the
destination, allocating only fresh cells and leaving every cell below
the watermark `n` untouched. -/
theorem copyFromAux_spec :
    ∀ (cs : List (Nat × Int)) (h : Heap) (dst : LinkedList) (cd : List (Nat × Int))
      (hd : Option Nat) (fuel : Nat) (n : Nat),
      isSeg h hd cs none = true →
      Rep h dst cd →
      (∀ x ∈ addrs cs, x < n) →
      (∀ x ∈ addrs cd, n ≤ x) →
      n ≤ h.length →
      cs.length ≤ fuel →
      ∃ h' dst' cd', copyFromAux h dst hd fuel = some ⟨h', dst'⟩ ∧
        Rep h' dst' cd' ∧ vals cd' = vals cd ++ vals cs ∧
        (∀ x ∈ addrs cd', n ≤ x) ∧
        (∀ x, x < n → h'.get? x = h.get? x) ∧ h.length ≤ h'.length := by
  intro cs
  induction cs with
  | nil =>
    intro h dst cd hd fuel n hs hrd hlt hge hn hfuel
    have : hd = none := isSeg_nil_iff.mp hs
    subst this
    refine ⟨h, dst, cd, ?_, hrd, by simp [vals], hge, fun _ _ => rfl, le_refl _⟩
    cases fuel <;> rfl
  | cons q rest ih =>
    obtain ⟨a, v⟩ := q
    intro h dst cd hd fuel n hs hrd hlt hge hn hfuel
    obtain ⟨hhd, hget, hrest⟩ := isSeg_cons_iff.mp hs
    subst hhd
    cases fuel with
    | zero => simp at hfuel
    | succ f =>
      obtain ⟨h₁, dst₁, hpb, hrd₁, hev⟩ := push_back_spec hrd v
      have hrest₁ : isSeg h₁ (cHead rest none) rest none = true := by
        refine isSeg_congr ?_ hrest
        intro p hp
        have hplt : p.1 < n :=
          hlt p.1 (List.mem_map_of_mem Prod.fst (List.mem_cons_of_mem _ hp))
        refine hev.2.1 p.1 (lt_of_lt_of_le hplt hn) ?_
        intro hmem
        exact absurd (hge p.1 hmem) (by omega)
      obtain ⟨h', dst', cd', hrec, hrd', hvals, hge', hframe', hlen'⟩ :=
        ih h₁ dst₁ (cd ++ [(h.length, v)]) (cHead rest none) f n hrest₁ hrd₁
          (fun x hx => hlt x (List.mem_cons_of_mem a hx))
          (by
            intro x hx
            rw [addrs_append] at hx
            rcases List.mem_append.mp hx with hm | hm
            · exact hge x hm
            · have hxe : x = h.length := by simpa [addrs] using hm
              exact hxe ▸ hn)
          (le_trans hn hev.1)
          (by simpa using hfuel)
      refine ⟨h', dst', cd', ?_, hrd', ?_, hge', ?_, le_trans hev.1 hlen'⟩
      · rw [copyFromAux, deref_of_get? hget]
        simp only [hpb]
        exact hrec
      · rw [hvals, vals_append]
        show (vals cd ++ [v]) ++ vals rest = vals cd ++ v :: vals rest
        rw [List.append_assoc, List.singleton_append]
      · intro x hxn
        have hxcd : x ∉ addrs cd := by
          intro hmem
          exact absurd (hge x hmem) (by omega)
        rw [hframe' x hxn, hev.2.1 x (lt_of_lt_of_le hxn hn) hxcd]

/-- The deep copy (`duplicate` / copy construction): the copy holds the
same values in fresh cells and no pre-existing cell is touched. -/
theorem duplicate_spec {h : Heap} {l : LinkedList} {c : List (Nat × Int)}
    (hr : Rep h l c) :
    ∃ h' b cb, duplicate h l = some ⟨h', b⟩ ∧ Rep h' b cb ∧ vals cb = vals c ∧
      (∀ x ∈ addrs cb, h.length ≤ x) ∧
      (∀ x, x < h.length → h'.get? x = h.get? x) ∧ h.length ≤ h'.length := by
  obtain ⟨h', b, cb, hrec, hrd, hvals, hge, hframe, hlen⟩ :=
    copyFromAux_spec c h LinkedList.init [] l.head (h.length + 1) h.length hr.1
      (rep_init h)
      (fun x hx => by
        obtain ⟨p, hp, rfl⟩ := List.mem_map.mp hx
        exact rep_mem_lt hr p hp)
      (by simp [addrs])
      (le_refl _)
      (le_trans (rep_length_le hr) (Nat.le_succ _))
  refine ⟨h', b, cb, ?_, hrd, by simpa [vals] using hvals, hge, hframe, hlen⟩
  unfold duplicate
  exact hrec

/-! ## The claims -/

/-- C1: after any finite sequence of public mutating operations starting
from a freshly initialized list, the run succeeds and the structural
invariant holds: `size` equals the number of nodes reachable from `head`
by following `next` links (the length of the `toVector` traversal), the
tail node — when present — has a null `next`, and `size = 0` holds
exactly when `head` is null and exactly when `tail` is null. -/
theorem C1_invariant_after_any_ops (ops : List Op) :
    ∃ h l, run ops = some ⟨h, l⟩ ∧
      (∃ vs, toVector h l = some vs ∧ l.size = vs.length) ∧
      (∀ t, l.tail = some t → ∃ nd, deref h t = some nd ∧ nd.next = none) ∧
      ((l.size = 0 ↔ l.head = none) ∧ (l.size = 0 ↔ l.tail = none)) := by
  obtain ⟨h, l, c, hrun, hrep⟩ := runFrom_wf ops [] LinkedList.init [] (rep_init [])
  refine ⟨h, l, hrun, ⟨vals c, toVector_spec hrep, ?_⟩, ?_, rep_empty_iff hrep⟩
  · rw [hrep.2.2.2]
    simp [vals]
  · intro t ht
    have hcne : c ≠ [] := by
      intro he
      subst he
      rw [hrep.2.2.1] at ht
      simp [addrs] at ht
    obtain ⟨c₀, t', tv, hdec, htl, hget⟩ := rep_tail_node hrep hcne
    have hte : t' = t := by
      rw [htl] at ht
      injection ht
    subst hte
    exact ⟨Node.mk tv none, deref_of_get? hget, rfl⟩

/-- C2: popping or erasing the single element of a one-element list
leaves head null, tail null and size 0, and a subsequent `push_front` or
`push_back` on that empty list succeeds and produces a single-element
list whose head and tail are the same (fresh) node. -/
theorem C2_empty_transition {h : Heap} {l : LinkedList} {a : Nat} {v : Int}
    (hr : Rep h l [(a, v)]) :
    ∃ h₁ l₁, pop_front h l = some ⟨h₁, l₁, some v⟩ ∧
      erase h l 0 = some ⟨h₁, l₁, true⟩ ∧
      l₁.head = none ∧ l₁.tail = none ∧ l₁.size = 0 ∧
      (∀ w : Int, Rep (push_front h₁ l₁ w).1 (push_front h₁ l₁ w).2 [(h₁.length, w)] ∧
        (push_front h₁ l₁ w).2.head = some h₁.length ∧
        (push_front h₁ l₁ w).2.tail = some h₁.length ∧
        (push_front h₁ l₁ w).2.size = 1) ∧
      (∀ w : Int, ∃ h₂ l₂, push_back h₁ l₁ w = some ⟨h₂, l₂⟩ ∧
        Rep h₂ l₂ [(h₁.length, w)] ∧
        l₂.head = some h₁.length ∧ l₂.tail = some h₁.length ∧ l₂.size = 1) := by
  obtain ⟨l₁, hpf, hrep₁, -⟩ := pop_front_spec_cons hr
  have hsize1 : l.size = 1 := hr.2.2.2
  refine ⟨freeCell h a, l₁, hpf, ?_, rep_head hrep₁, hrep₁.2.2.1, hrep₁.2.2.2, ?_, ?_⟩
  · unfold erase
    rw [if_neg (by omega), if_pos rfl, hpf]
    rfl
  · intro w
    obtain ⟨hrep₂, -⟩ := push_front_spec hrep₁ w
    refine ⟨hrep₂, rep_head hrep₂, ?_, hrep₂.2.2.2⟩
    rw [hrep₂.2.2.1]
    rfl
  · intro w
    obtain ⟨h₂, l₂, hpb, hrep₂, -⟩ := push_back_spec hrep₁ w
    rw [List.nil_append] at hrep₂
    refine ⟨h₂, l₂, hpb, hrep₂, rep_head hrep₂, ?_, hrep₂.2.2.2⟩
    rw [hrep₂.2.2.1]
    rfl

/-- C2 witness: the theorem applied to the concrete one-element list
`[5]` stored at heap address 0. -/
theorem C2_empty_transition_witness :
    Rep [some (Node.mk 5 none)] ⟨some 0, some 0, 1⟩ [(0, 5)] ∧
    ∃ h₁ l₁, pop_front [some (Node.mk 5 none)] ⟨some 0, some 0, 1⟩ = some ⟨h₁, l₁, some 5⟩ ∧
      erase [some (Node.mk 5 none)] ⟨some 0, some 0, 1⟩ 0 = some ⟨h₁, l₁, true⟩ ∧
      l₁.head = none ∧ l₁.tail = none ∧ l₁.size = 0 ∧
      (∀ w : Int, Rep (push_front h₁ l₁ w).1 (push_front h₁ l₁ w).2 [(h₁.length, w)] ∧
        (push_front h₁ l₁ w).2.head = some h₁.length ∧
        (push_front h₁ l₁ w).2.tail = some h₁.length ∧
        (push_front h₁ l₁ w).2.size = 1) ∧
      (∀ w : Int, ∃ h₂ l₂, push_back h₁ l₁ w = some ⟨h₂, l₂⟩ ∧
        Rep h₂ l₂ [(h₁.length, w)] ∧
        l₂.head = some h₁.length ∧ l₂.tail = some h₁.length ∧ l₂.size = 1) :=
  ⟨by decide, @C2_empty_transition [some (Node.mk 5 none)] ⟨some 0, some 0, 1⟩ 0 5 (by decide)⟩

/-- C3: `insert(size, v)` succeeds and appends `v` at the tail;
`insert` at any index greater than `size` fails leaving heap and list
literally unchanged; `erase` at any index at or beyond `size` (hence any
`erase` on an empty list) fails leaving heap and list literally
unchanged. -/
theorem C3_index_boundaries {h : Heap} {l : LinkedList} {c : List (Nat × Int)}
    (hr : Rep h l c) (v : Int) :
    (∃ h' l', insert h l l.size v = some ⟨h', l', true⟩ ∧
      toVector h' l' = some (vals c ++ [v]) ∧ l'.tail = some h.length ∧
      l'.size = l.size + 1) ∧
    (∀ i, i > l.size → insert h l i v = some ⟨h, l, false⟩) ∧
    (∀ i, i ≥ l.size → erase h l i = some ⟨h, l, false⟩) := by
  have hsize := hr.2.2.2
  refine ⟨?_, ?_, ?_⟩
  · obtain ⟨h', l', hins, hrep', -⟩ := insert_spec_ok hr v (le_refl c.length)
    rw [hsize]
    refine ⟨h', l', hins, ?_, ?_, ?_⟩
    · rw [toVector_spec hrep']
      simp [vals, List.take_length, List.drop_length]
    · rw [hrep'.2.2.1]
      simp [addrs, List.take_length, List.drop_length, List.getLast?_concat]
    · rw [hrep'.2.2.2]
      simp [List.take_length, List.drop_length]
  · intro i hi
    exact insert_spec_oob hr v (by omega)
  · intro i hi
    exact erase_spec_oob hr (by omega)

/-- C3 witness: the boundary behaviour at the concrete list `[5]`. -/
theorem C3_index_boundaries_witness :
    Rep [some (Node.mk 5 none)] ⟨some 0, some 0, 1⟩ [(0, 5)] ∧
    ((∃ h' l', insert [some (Node.mk 5 none)] ⟨some 0, some 0, 1⟩
        (LinkedList.size ⟨some 0, some 0, 1⟩) 9 = some ⟨h', l', true⟩ ∧
      toVector h' l' = some (vals [(0, 5)] ++ [9]) ∧ l'.tail = some 1 ∧
      l'.size = 2) ∧
    (∀ i, i > LinkedList.size ⟨some 0, some 0, 1⟩ →
      insert [some (Node.mk 5 none)] ⟨some 0, some 0, 1⟩ i 9 =
        some ⟨[some (Node.mk 5 none)], ⟨some 0, some 0, 1⟩, false⟩) ∧
    (∀ i, i ≥ LinkedList.size ⟨some 0, some 0, 1⟩ →
      erase [some (Node.mk 5 none)] ⟨some 0, some 0, 1⟩ i =
        some ⟨[some (Node.mk 5 none)], ⟨some 0, some 0, 1⟩, false⟩)) :=
  ⟨by decide, @C3_index_boundaries [some (Node.mk 5 none)] ⟨some 0, some 0, 1⟩
    [(0, 5)] (by decide) 9⟩

/-- C4: `pop_front` on an empty represented list reports failure and
leaves heap and list literally unchanged; on a nonempty one it returns
the value that was at the head, advances `head` to the head node's
successor, decrements `size` by exactly one, keeps the result
represented, and resets `tail` to null when the list became empty. -/
theorem C4_pop_front_contract {h : Heap} {l : LinkedList} {c : List (Nat × Int)}
    (hr : Rep h l c) :
    (c = [] → l.head = none ∧ pop_front h l = some ⟨h, l, none⟩) ∧
    (∀ a v rest, c = (a, v) :: rest →
      ∃ h' l', pop_front h l = some ⟨h', l', some v⟩ ∧
        toVector h l = some (v :: vals rest) ∧
        (∃ nd, deref h a = some nd ∧ l'.head = nd.next) ∧
        l'.size + 1 = l.size ∧
        Rep h' l' rest ∧
        (rest = [] → l'.head = none ∧ l'.tail = none)) := by
  constructor
  · rintro rfl
    exact ⟨rep_head hr, pop_front_spec_nil hr⟩
  · rintro a v rest rfl
    obtain ⟨hhead, hget, -⟩ := isSeg_cons_iff.mp hr.1
    obtain ⟨l', hpf, hrep', -⟩ := pop_front_spec_cons hr
    refine ⟨freeCell h a, l', hpf, ?_, ?_, ?_, hrep', ?_⟩
    · rw [toVector_spec hr]
      rfl
    · exact ⟨Node.mk v (cHead rest none), deref_of_get? hget, rep_head hrep'⟩
    · rw [hrep'.2.2.2, hr.2.2.2]
      rfl
    · rintro rfl
      exact ⟨rep_head hrep', hrep'.2.2.1⟩

/-- C4 witness: the contract at the concrete lists `[]` and `[5]`. -/
theorem C4_pop_front_contract_witness :
    Rep [some (Node.mk 5 none)] ⟨some 0, some 0, 1⟩ [(0, 5)] ∧
    Rep ([] : Heap) LinkedList.init [] ∧
    (([] : List (Nat × Int)) = [] →
      LinkedList.init.head = none ∧
      pop_front [] LinkedList.init = some ⟨[], LinkedList.init, none⟩) ∧
    (∀ a v rest, [(0, 5)] = (a, v) :: rest →
      ∃ h' l', pop_front [some (Node.mk 5 none)] ⟨some 0, some 0, 1⟩ = some ⟨h', l', some v⟩ ∧
        toVector [some (Node.mk 5 none)] ⟨some 0, some 0, 1⟩ = some (v :: vals rest) ∧
        (∃ nd, deref [some (Node.mk 5 none)] a = some nd ∧ l'.head = nd.next) ∧
        l'.size + 1 = LinkedList.size ⟨some 0, some 0, 1⟩ ∧
        Rep h' l' rest ∧
        (rest = [] → l'.head = none ∧ l'.tail = none)) :=
  ⟨by decide, by decide,
    (@C4_pop_front_contract [] LinkedList.init [] (by decide)).1,
    (@C4_pop_front_contract [some (Node.mk 5 none)] ⟨some 0, some 0, 1⟩ [(0, 5)] (by decide)).2⟩

/-- C5: on an empty list, the C++ `front()`/`back()` execute
`head_->value` / `tail_->value` with no guard — in the model the
dereference of the null owner faults (`none`, undefined behaviour in the
source) — while the C `ll_front`/`ll_back` guard on the null pointer and
return the failure flag `0` without reading memory. -/
theorem C5_empty_front_back :
    cpp_front [] LinkedList.init = none ∧
    cpp_back [] LinkedList.init = none ∧
    ll_front [] LinkedList.init false = some ⟨false, none⟩ ∧
    ll_back [] LinkedList.init false = some ⟨false, none⟩ :=
  ⟨rfl, rfl, rfl, rfl⟩

/-- C6: self-move-assignment.  The C++ `operator=(LinkedList&&)` guards
with `this != &other`, so the self case is a no-op.  The C
`ll_move_assign_from(&L, &L)` has no guard: `ll_clear` frees and zeroes
the one shared struct before `*dst = *src` copies it, so a one-element
list `[7]` comes out empty — the data is destroyed, contradicting the
claimed no-op. -/
theorem C6_self_move_assign :
    cpp_move_assign_self [some (Node.mk 7 none)] ⟨some 0, some 0, 1⟩ =
      ⟨[some (Node.mk 7 none)], ⟨some 0, some 0, 1⟩⟩ ∧
    toVector [some (Node.mk 7 none)] ⟨some 0, some 0, 1⟩ = some [7] ∧
    (ll_move_assign_self [some (Node.mk 7 none)] ⟨some 0, some 0, 1⟩).map
      (fun p => toVector p.1 p.2) = some (some []) := by
  refine ⟨rfl, by decide, by decide⟩

/-- C7: the deep copy `B = duplicate(A)` yields `toVector B = toVector A`,
and since the copy shares no cell with `A`, any subsequent sequence of
mutating operations on `A` runs to completion without ever changing
`toVector B`. -/
theorem C7_copy_independence {h : Heap} {a : LinkedList} {ca : List (Nat × Int)}
    (hr : Rep h a ca) :
    ∃ h₁ b, duplicate h a = some ⟨h₁, b⟩ ∧
      toVector h₁ b = toVector h₁ a ∧
      toVector h₁ b = some (vals ca) ∧
      ∀ ops : List Op, ∃ h₂ a₂, runFrom h₁ a ops = some ⟨h₂, a₂⟩ ∧
        toVector h₂ b = some (vals ca) := by
  obtain ⟨h₁, b, cb, hdup, hrb, hvals, hge, hframe, hlen⟩ := duplicate_spec hr
  have hra₁ : Rep h₁ a ca := by
    refine ⟨isSeg_congr ?_ hr.1, hr.2.1, hr.2.2.1, hr.2.2.2⟩
    intro p hp
    exact hframe p.1 (rep_mem_lt hr p hp)
  have hdisj : ∀ x ∈ addrs ca, x ∉ addrs cb := by
    intro x hx hmem
    obtain ⟨p, hp, rfl⟩ := List.mem_map.mp hx
    exact absurd (hge p.1 hmem) (not_le.mpr (rep_mem_lt hr p hp))
  refine ⟨h₁, b, hdup, ?_, ?_, ?_⟩
  · rw [toVector_spec hrb, toVector_spec hra₁, hvals]
  · rw [toVector_spec hrb, hvals]
  · intro ops
    obtain ⟨h₂, a₂, ca₂, hrun, -, hrb₂, -⟩ := runFrom_spectator ops h₁ a ca b cb hra₁ hrb hdisj
    exact ⟨h₂, a₂, hrun, by rw [toVector_spec hrb₂, hvals]⟩

/-- C7 witness: copy independence at the concrete list `[5]`, exercised
with one concrete mutation sequence. -/
theorem C7_copy_independence_witness :
    Rep [some (Node.mk 5 none)] ⟨some 0, some 0, 1⟩ [(0, 5)] ∧
    ∃ h₁ b, duplicate [some (Node.mk 5 none)] ⟨some 0, some 0, 1⟩ = some ⟨h₁, b⟩ ∧
      toVector h₁ b = toVector h₁ ⟨some 0, some 0, 1⟩ ∧
      toVector h₁ b = some (vals [(0, 5)]) ∧
      ∀ ops : List Op, ∃ h₂ a₂,
        runFrom h₁ ⟨some 0, some 0, 1⟩ ops = some ⟨h₂, a₂⟩ ∧
        toVector h₂ b = some (vals [(0, 5)]) :=
  ⟨by decide, @C7_copy_independence [some (Node.mk 5 none)] ⟨some 0, some 0, 1⟩
    [(0, 5)] (by decide)⟩

/-- C8: the ownership transfer (`move_from`): the new list's sequence
equals the source's pre-transfer sequence (identical chain, untouched
heap), the moved-from source is exactly the freshly initialized empty
list (size 0, head and tail null), it is validly represented, and it
remains usable — any subsequent operation sequence on it runs to
completion in a well-formed state. -/
theorem C8_move_transfer {h : Heap} {src : LinkedList} {c : List (Nat × Int)}
    (hr : Rep h src c) :
    ∃ dst, move_from h src = ⟨h, dst, LinkedList.init⟩ ∧
      toVector h dst = toVector h src ∧
      toVector h dst = some (vals c) ∧
      Rep h dst c ∧
      LinkedList.init.size = 0 ∧ LinkedList.init.head = none ∧
      LinkedList.init.tail = none ∧ Rep h LinkedList.init [] ∧
      (∀ ops : List Op, ∃ h' l' c', runFrom h LinkedList.init ops = some ⟨h', l'⟩ ∧
        Rep h' l' c') := by
  refine ⟨⟨src.head, src.tail, src.size⟩, rfl, rfl, ?_, ?_, rfl, rfl, rfl, rep_init h, ?_⟩
  · show toVector h ⟨src.head, src.tail, src.size⟩ = some (vals c)
    have : toVector h ⟨src.head, src.tail, src.size⟩ = toVector h src := rfl
    rw [this, toVector_spec hr]
  · exact ⟨hr.1, hr.2.1, hr.2.2.1, hr.2.2.2⟩
  · intro ops
    exact runFrom_wf ops h LinkedList.init [] (rep_init h)

/-- C8 witness: the transfer of the concrete list `[5]`. -/
theorem C8_move_transfer_witness :
    Rep [some (Node.mk 5 none)] ⟨some 0, some 0, 1⟩ [(0, 5)] ∧
    ∃ dst, move_from [some (Node.mk 5 none)] ⟨some 0, some 0, 1⟩ =
        ⟨[some (Node.mk 5 none)], dst, LinkedList.init⟩ ∧
      toVector [some (Node.mk 5 none)] dst = toVector [some (Node.mk 5 none)] ⟨some 0, some 0, 1⟩ ∧
      toVector [some (Node.mk 5 none)] dst = some (vals [(0, 5)]) ∧
      Rep [some (Node.mk 5 none)] dst [(0, 5)] ∧
      LinkedList.init.size = 0 ∧ LinkedList.init.head = none ∧
      LinkedList.init.tail = none ∧ Rep [some (Node.mk 5 none)] LinkedList.init [] ∧
      (∀ ops : List Op, ∃ h' l' c',
        runFrom [some (Node.mk 5 none)] LinkedList.init ops = some ⟨h', l'⟩ ∧ Rep h' l' c') :=
  ⟨by decide, @C8_move_transfer [some (Node.mk 5 none)] ⟨some 0, some 0, 1⟩
    [(0, 5)] (by decide)⟩

/-- C9 counterexample: `"bogus"` names none of the three task groups,
yet the C harness `main` exits with status 0 (it falls through to
running all groups), not a non-zero status. -/
theorem C9_counterexample_c_main :
    ("bogus" ≠ "task1" ∧ "bogus" ≠ "task2" ∧ "bogus" ≠ "task3") ∧
    c_main ["bogus"] = 0 := by
  refine ⟨⟨?_, ?_, ?_⟩, rfl⟩ <;> decide

/-- C9 amended: with no selector both harnesses run all groups and exit
0.  With a recognized selector both exit 0.  With an unrecognized
selector the C++ harness exits with the distinct non-zero status 2,
while the C harness treats it like the no-selector case: it runs all
groups and exits 0. -/
theorem C9_amended_selector_status (args : List String) :
    (args = [] → cpp_main args = 0 ∧ c_main args = 0) ∧
    (∀ w rest, args = w :: rest →
      ((w = "task1" ∨ w = "task2" ∨ w = "task3") →
        cpp_main args = 0 ∧ c_main args = 0) ∧
      (w ≠ "task1" → w ≠ "task2" → w ≠ "task3" →
        cpp_main args = 2 ∧ c_main args = 0)) := by
  constructor
  · rintro rfl
    exact ⟨rfl, rfl⟩
  · rintro w rest rfl
    constructor
    · intro hw
      unfold cpp_main c_main
      rcases hw with rfl | rfl | rfl <;> simp
    · intro h1 h2 h3
      unfold cpp_main c_main
      simp [h1, h2, h3]

/-- C9 amended witness: the statuses at the concrete selectors `"task2"`
and `"bogus"` and at the empty argument vector. -/
theorem C9_amended_selector_status_witness :
    (cpp_main [] = 0 ∧ c_main [] = 0) ∧
    (cpp_main ["task2"] = 0 ∧ c_main ["task2"] = 0) ∧
    (cpp_main ["bogus"] = 2 ∧ c_main ["bogus"] = 0) :=
  ⟨(C9_amended_selector_status []).1 rfl,
   ((C9_amended_selector_status ["task2"]).2 "task2" [] rfl).1 (Or.inr (Or.inl rfl)),
   ((C9_amended_selector_status ["bogus"]).2 "bogus" [] rfl).2
     (by decide) (by decide) (by decide)⟩

/-- C10: the C value-returning operations tolerate a null out pointer:
on any represented list, `ll_pop_front`, `ll_front` and `ll_back` called
with a null `out` return the same flag — and, for the pop, perform the
identical heap and list mutation — as with a non-null `out`, and write a
value only when the pointer is non-null. -/
theorem C10_null_out_tolerance {h : Heap} {l : LinkedList} {c : List (Nat × Int)}
    (hr : Rep h l c) :
    (∃ h' l' flag w, ll_pop_front h l false = some ⟨h', l', flag, w⟩ ∧
      ll_pop_front h l true = some ⟨h', l', flag, none⟩ ∧
      (flag = false → h' = h ∧ l' = l ∧ w = none) ∧
      (flag = true → w.isSome = true)) ∧
    (∃ flag w, ll_front h l false = some ⟨flag, w⟩ ∧
      ll_front h l true = some ⟨flag, none⟩) ∧
    (∃ flag w, ll_back h l false = some ⟨flag, w⟩ ∧
      ll_back h l true = some ⟨flag, none⟩) := by
  refine ⟨?_, ?_, ?_⟩
  · cases c with
    | nil =>
      have hhead : l.head = none := rep_head hr
      refine ⟨h, l, false, none, ?_, ?_, fun _ => ⟨rfl, rfl, rfl⟩, by simp⟩
      · unfold ll_pop_front
        rw [hhead]
      · unfold ll_pop_front
        rw [hhead]
    | cons q rest =>
      obtain ⟨a, v⟩ := q
      obtain ⟨hhead, hget, -⟩ := isSeg_cons_iff.mp hr.1
      refine ⟨freeCell h a,
        { head := cHead rest none
          tail := if cHead rest none = none then none else l.tail
          size := l.size - 1 },
        true, some v, ?_, ?_, by simp, fun _ => rfl⟩
      · unfold ll_pop_front
        rw [hhead]
        show (deref h a).map _ = _
        rw [deref_of_get? hget]
        rfl
      · unfold ll_pop_front
        rw [hhead]
        show (deref h a).map _ = _
        rw [deref_of_get? hget]
        rfl
  · cases c with
    | nil =>
      have hhead : l.head = none := rep_head hr
      refine ⟨false, none, ?_, ?_⟩ <;> (unfold ll_front; rw [hhead])
    | cons q rest =>
      obtain ⟨a, v⟩ := q
      obtain ⟨hhead, hget, -⟩ := isSeg_cons_iff.mp hr.1
      refine ⟨true, some v, ?_, ?_⟩
      · simp only [ll_front, hhead]
        rw [if_neg (by simp), deref_of_get? hget]
        rfl
      · simp only [ll_front, hhead]
        rw [if_pos trivial]
  · by_cases hc : c = []
    · subst hc
      have htail : l.tail = none := hr.2.2.1
      refine ⟨false, none, ?_, ?_⟩ <;> (unfold ll_back; rw [htail])
    · obtain ⟨c₀, t, tv, hdec, htail, hget⟩ := rep_tail_node hr hc
      refine ⟨true, some tv, ?_, ?_⟩
      · simp only [ll_back, htail]
        rw [if_neg (by simp), deref_of_get? hget]
        rfl
      · simp only [ll_back, htail]
        rw [if_pos trivial]

/-- C10 witness: null-out tolerance at the concrete list `[5]`. -/
theorem C10_null_out_tolerance_witness :
    Rep [some (Node.mk 5 none)] ⟨some 0, some 0, 1⟩ [(0, 5)] ∧
    ((∃ h' l' flag w,
      ll_pop_front [some (Node.mk 5 none)] ⟨some 0, some 0, 1⟩ false = some ⟨h', l', flag, w⟩ ∧
      ll_pop_front [some (Node.mk 5 none)] ⟨some 0, some 0, 1⟩ true = some ⟨h', l', flag, none⟩ ∧
      (flag = false → h' = [some (Node.mk 5 none)] ∧ l' = ⟨some 0, some 0, 1⟩ ∧ w = none) ∧
      (flag = true → w.isSome = true)) ∧
    (∃ flag w, ll_front [some (Node.mk 5 none)] ⟨some 0, some 0, 1⟩ false = some ⟨flag, w⟩ ∧
      ll_front [some (Node.mk 5 none)] ⟨some 0, some 0, 1⟩ true = some ⟨flag, none⟩) ∧
    (∃ flag w, ll_back [some (Node.mk 5 none)] ⟨some 0, some 0, 1⟩ false = some ⟨flag, w⟩ ∧
      ll_back [some (Node.mk 5 none)] ⟨some 0, some 0, 1⟩ true = some ⟨flag, none⟩)) :=
  ⟨by decide, @C10_null_out_tolerance [some (Node.mk 5 none)] ⟨some 0, some 0, 1⟩
    [(0, 5)] (by decide)⟩

end FitchForkLinkedList
